import Mathlib

/-!
# `linked_list.c`: a heap-level embedding

The C library keeps a singly-linked chain of `struct node` cells behind a
`struct linked_list` header and obtains its storage through two registered
function pointers.  The embedding keeps that shape:

* a pointer is an `Option Addr`, with `none` for `NULL`;
* the heap maps addresses to the objects stored there;
* every C function becomes a function on an explicit `State` (the two global
  function pointers, the heap, and a log of the acquire and release calls) that
  returns in `Except Err`: `Err.fault` is a dereference of `NULL` or of an
  address that holds no object of the expected type, or a call through a `NULL`
  function pointer; `Err.out_of_fuel` is a `while` loop that was cut off by the
  fuel bound (such loops do not terminate on a cyclic chain);
* `size_t` arithmetic is arithmetic modulo `2 ^ 64`.
-/

set_option autoImplicit false

namespace LinkedList

/-! ## Data model -/

/-- A non-`NULL` address. -/
abbrev Addr := Nat

/-- The largest value of `size_t` (a 64-bit target). -/
def SIZE_MAX : Nat := 2 ^ 64 - 1

/-- Modelled from the spec: `struct node` is declared in `linked_list.h`, which is
not among the sources.  The fields are the two that `linked_list.c` reads and
writes: the `unsigned int` payload and the forward link. -/
structure node where
  data : Nat
  next : Option Addr
deriving DecidableEq, Repr

/-- Modelled from the spec: `struct linked_list` of `linked_list.h` (not among the
sources); its only field is the head link. -/
structure linked_list where
  head : Option Addr
deriving DecidableEq, Repr

/-- Modelled from the spec: `struct iterator` of `linked_list.h` (not among the
sources), with the four fields that `linked_list.c` assigns. -/
structure iterator where
  ll : Option Addr
  current_node : Option Addr
  current_index : Nat
  data : Nat
deriving DecidableEq, Repr

/-- What a live block of the heap holds. -/
inductive Obj where
  | node (n : node)
  | linked_list (l : linked_list)
  | iterator (it : iterator)
deriving DecidableEq, Repr

/-- The heap: the object stored at each address, `none` where no block is live. -/
abbrev Heap := Addr → Option Obj

/-- The heap with the object at `a` replaced by `o`. -/
def Heap.set (h : Heap) (a : Addr) (o : Option Obj) : Heap :=
  fun b => if b = a then o else h b

/-- An acquire function, the kind of value stored in `malloc_fptr`.  It is given
the number of acquire calls made before this one and the current heap, and
answers with an address or `NULL`. -/
abbrev MallocFn := Nat → Heap → Option Addr

/-- A release function, the kind of value stored in `free_fptr`: what the heap is
after the block at the given address has been handed back. -/
abbrev FreeFn := Heap → Addr → Heap

/-- How an execution can fail to return. -/
inductive Err where
  | fault
  | out_of_fuel
deriving DecidableEq, Repr

/-- The program state: the two file-scope function pointers, the heap, and a
record of the calls made through the function pointers (newest first): every
answer of `malloc_fptr` and every argument passed to `free_fptr`. -/
structure State where
  malloc_fptr : Option MallocFn
  free_fptr : Option FreeFn
  heap : Heap
  acquired : List (Option Addr)
  released : List Addr

/-! ## Memory accesses -/

/-- Reads `*p` for `p` a `struct node *`. -/
def load_node (h : Heap) : Option Addr → Except Err node
  | none => .error .fault
  | some a =>
    match h a with
    | some (.node n) => .ok n
    | _ => .error .fault

/-- Reads `*p` for `p` a `struct linked_list *`. -/
def load_list (h : Heap) : Option Addr → Except Err linked_list
  | none => .error .fault
  | some a =>
    match h a with
    | some (.linked_list l) => .ok l
    | _ => .error .fault

/-- Reads `*p` for `p` a `struct iterator *`. -/
def load_iter (h : Heap) : Option Addr → Except Err iterator
  | none => .error .fault
  | some a =>
    match h a with
    | some (.iterator it) => .ok it
    | _ => .error .fault

/-- Writes a whole object at `a`. -/
def State.store (s : State) (a : Addr) (o : Obj) : State :=
  { s with heap := s.heap.set a (some o) }

/-- The assignment `p->next = v` for `p` a `struct node *`. -/
def set_next (s : State) (p : Option Addr) (v : Option Addr) : Except Err State :=
  match p with
  | none => .error .fault
  | some a =>
    match s.heap a with
    | some (.node n) => .ok (s.store a (.node { n with next := v }))
    | _ => .error .fault

/-- The assignment `p->data = v` for `p` a `struct node *`. -/
def set_data (s : State) (p : Option Addr) (v : Nat) : Except Err State :=
  match p with
  | none => .error .fault
  | some a =>
    match s.heap a with
    | some (.node n) => .ok (s.store a (.node { n with data := v }))
    | _ => .error .fault

/-- The assignment `p->head = v` for `p` a `struct linked_list *`. -/
def set_head (s : State) (p : Option Addr) (v : Option Addr) : Except Err State :=
  match p with
  | none => .error .fault
  | some a =>
    match s.heap a with
    | some (.linked_list _) => .ok (s.store a (.linked_list { head := v }))
    | _ => .error .fault

/-- The call `malloc_fptr(size)`: a fault when no function is registered, otherwise
the answer of the registered function, which is logged.  The block becomes an
object of the heap when the caller writes its fields. -/
def call_malloc (s : State) : Except Err (Option Addr × State) :=
  match s.malloc_fptr with
  | none => .error .fault
  | some f =>
    let r := f s.acquired.length s.heap
    .ok (r, { s with acquired := r :: s.acquired })

/-- The call `free_fptr(a)`: a fault when no function is registered, otherwise the
registered function acts on the heap and the call is logged. -/
def call_free (s : State) (a : Addr) : Except Err State :=
  match s.free_fptr with
  | none => .error .fault
  | some f => .ok { s with heap := f s.heap a, released := a :: s.released }

/-! ## The functions of `linked_list.c` -/

/-- `linked_list_insert_front` (lines 122-133). -/
def linked_list_insert_front (ll : Option Addr) (data : Nat) (s : State) :
    Except Err (Bool × State) :=
  match ll with
  | none => .ok (false, s)
  | some l => do
    let (new_node, s) ← call_malloc s
    match new_node with
    | none => .ok (false, s)
    | some p => do
      let hdr ← load_list s.heap (some l)
      let s := s.store p (.node { data := data, next := hdr.head })
      let s ← set_head s (some l) (some p)
      .ok (true, s)

/-- The `while (curr != NULL && i < index - 1)` loop of `linked_list_insert`
(lines 105-108).  The first argument is `index - 1 - i`, the number of
iterations the counter still allows; the result is the final `curr`. -/
def insert_loop (h : Heap) : Nat → Option Addr → Except Err (Option Addr)
  | 0, curr => .ok curr
  | _ + 1, none => .ok none
  | n + 1, some c => do
    let nd ← load_node h (some c)
    insert_loop h n nd.next

/-- `linked_list_insert` (lines 86-116). -/
def linked_list_insert (ll : Option Addr) (index : Nat) (data : Nat) (s : State) :
    Except Err (Bool × State) :=
  match ll with
  | none => .ok (false, s)
  | some l => do
    let (new_node, s) ← call_malloc s
    match new_node with
    | none => .ok (false, s)
    | some p => do
      let s := s.store p (.node { data := data, next := none })
      if index = 0 then do
        let hdr ← load_list s.heap (some l)
        let s ← set_next s (some p) hdr.head
        let s ← set_head s (some l) (some p)
        .ok (true, s)
      else do
        let hdr ← load_list s.heap (some l)
        let curr ← insert_loop s.heap (index - 1) hdr.head
        match curr with
        | none => .ok (false, s)
        | some c => do
          let nd ← load_node s.heap (some c)
          let s ← set_next s (some p) nd.next
          let s ← set_next s (some c) (some p)
          .ok (true, s)

/-- The `while (ll->head != NULL)` loop of `linked_list_insert_end` (lines 72-74):
each iteration stores `ll->head->next` into `ll->head`. -/
def insert_end_loop (l : Addr) : Nat → State → Except Err State
  | fuel, s => do
    let hdr ← load_list s.heap (some l)
    match hdr.head with
    | none => .ok s
    | some hd =>
      match fuel with
      | 0 => .error .out_of_fuel
      | fuel + 1 => do
        let nd ← load_node s.heap (some hd)
        let s ← set_head s (some l) nd.next
        insert_end_loop l fuel s

/-- `linked_list_insert_end` (lines 68-77): after the loop, the assignment
`ll->head->data = data` and `return true`.  No storage is acquired. -/
def linked_list_insert_end (ll : Option Addr) (data : Nat) (s : State) (fuel : Nat) :
    Except Err (Bool × State) :=
  match ll with
  | none => .ok (false, s)
  | some l => do
    let s ← insert_end_loop l fuel s
    let hdr ← load_list s.heap (some l)
    let s ← set_data s hdr.head data
    .ok (true, s)

/-- The `while (curr != NULL)` loop of `linked_list_size` (lines 56-59). -/
def size_loop (h : Heap) : Nat → Option Addr → Nat → Except Err Nat
  | _, none, counter => .ok counter
  | 0, some _, _ => .error .out_of_fuel
  | fuel + 1, some c, counter => do
    let nd ← load_node h (some c)
    size_loop h fuel nd.next ((counter + 1) % 2 ^ 64)

/-- `linked_list_size` (lines 50-61). -/
def linked_list_size (ll : Option Addr) (s : State) (fuel : Nat) : Except Err Nat :=
  match ll with
  | none => .ok 0
  | some l => do
    let hdr ← load_list s.heap (some l)
    match hdr.head with
    | none => .ok 0
    | some hd => size_loop s.heap fuel (some hd) 0

/-- The `while (curr != NULL)` loop of `linked_list_find` (lines 147-152). -/
def find_loop (h : Heap) (data : Nat) : Nat → Option Addr → Nat → Except Err Nat
  | _, none, index => .ok index
  | 0, some _, _ => .error .out_of_fuel
  | fuel + 1, some c, index => do
    let nd ← load_node h (some c)
    if nd.data = data then .ok index
    else find_loop h data fuel nd.next ((index + 1) % 2 ^ 64)

/-- `linked_list_find` (lines 140-154). -/
def linked_list_find (ll : Option Addr) (data : Nat) (s : State) (fuel : Nat) :
    Except Err Nat :=
  match ll with
  | none => .ok SIZE_MAX
  | some l => do
    let hdr ← load_list s.heap (some l)
    find_loop s.heap data fuel hdr.head 0

/-- The `for (size_t i = 0; i < index - 1; i++)` loop of `linked_list_remove`
(lines 176-180), started at the non-`NULL` head.  The first argument is the
number of iterations that remain; the result is `none` when the body executed
`return false`, and otherwise the final `prev`. -/
def remove_loop (h : Heap) : Nat → Addr → Except Err (Option Addr)
  | 0, prev => .ok (some prev)
  | n + 1, prev => do
    let nd ← load_node h (some prev)
    match nd.next with
    | none => .ok none
    | some q => remove_loop h n q

/-- `linked_list_remove` (lines 161-191). -/
def linked_list_remove (ll : Option Addr) (index : Nat) (s : State) :
    Except Err (Bool × State) :=
  match ll with
  | none => .ok (false, s)
  | some l => do
    let hdr ← load_list s.heap (some l)
    match hdr.head with
    | none => .ok (false, s)
    | some hd =>
      if index = 0 then do
        let nd ← load_node s.heap (some hd)
        let s ← set_head s (some l) nd.next
        let s ← call_free s hd
        .ok (true, s)
      else do
        let r ← remove_loop s.heap (index - 1) hd
        match r with
        | none => .ok (false, s)
        | some prev => do
          let pn ← load_node s.heap (some prev)
          match pn.next with
          | none => .ok (false, s)
          | some to_delete => do
            let dn ← load_node s.heap (some to_delete)
            let s ← set_next s (some prev) dn.next
            let s ← call_free s to_delete
            .ok (true, s)

/-- `linked_list_create` (lines 18-26). -/
def linked_list_create (s : State) : Except Err (Option Addr × State) :=
  match s.malloc_fptr with
  | none => .ok (none, s)
  | some _ => do
    let (ll, s) ← call_malloc s
    match ll with
    | none => .ok (none, s)
    | some l => .ok (some l, s.store l (.linked_list { head := none }))

/-- The `while (current != NULL)` loop of `linked_list_delete` (lines 37-41). -/
def delete_loop : Nat → Option Addr → State → Except Err State
  | _, none, s => .ok s
  | 0, some _, _ => .error .out_of_fuel
  | fuel + 1, some c, s => do
    let nd ← load_node s.heap (some c)
    let s ← call_free s c
    delete_loop fuel nd.next s

/-- `linked_list_delete` (lines 32-45). -/
def linked_list_delete (ll : Option Addr) (s : State) (fuel : Nat) :
    Except Err (Bool × State) :=
  match ll with
  | none => .ok (false, s)
  | some l => do
    let hdr ← load_list s.heap (some l)
    let s ← delete_loop fuel hdr.head s
    let s ← set_head s (some l) none
    .ok (true, s)

/-- The `while (i < index)` loop of `linked_list_create_iterator` (lines 202-205).
The first argument is `index - i`, the number of iterations that remain. -/
def create_iterator_loop (h : Heap) : Nat → Option Addr → Except Err (Option Addr)
  | 0, node_ptr => .ok node_ptr
  | n + 1, node_ptr => do
    let nd ← load_node h node_ptr
    create_iterator_loop h n nd.next

/-- `linked_list_create_iterator` (lines 198-212).  Neither `ll` nor the result
of the acquire call is tested against `NULL` before it is dereferenced. -/
def linked_list_create_iterator (ll : Option Addr) (index : Nat) (s : State) :
    Except Err (Option Addr × State) := do
  let hdr ← load_list s.heap ll
  let node_ptr ← create_iterator_loop s.heap index hdr.head
  let (iter, s) ← call_malloc s
  match iter with
  | none => .error .fault
  | some it => do
    let nd ← load_node s.heap node_ptr
    .ok (some it, s.store it (.iterator
      { ll := ll, data := nd.data, current_node := node_ptr, current_index := index }))

/-- `linked_list_delete_iterator` (lines 218-224). -/
def linked_list_delete_iterator (iter : Option Addr) (s : State) :
    Except Err (Bool × State) :=
  match iter with
  | none => .ok (false, s)
  | some it => do
    let s ← call_free s it
    .ok (true, s)

/-- `linked_list_iterate` (lines 230-244). -/
def linked_list_iterate (iter : Option Addr) (s : State) : Except Err (Bool × State) :=
  match iter with
  | none => .ok (false, s)
  | some it => do
    let i ← load_iter s.heap (some it)
    match i.current_node with
    | none => .ok (false, s)
    | some c => do
      let nd ← load_node s.heap (some c)
      match nd.next with
      | none => .ok (false, s)
      | some _ => do
        let i := { i with current_node := nd.next,
                          current_index := (i.current_index + 1) % 2 ^ 64 }
        let s := s.store it (.iterator i)
        match i.current_node with
        | some q => do
          let nq ← load_node s.heap (some q)
          .ok (true, s.store it (.iterator { i with data := nq.data }))
        | none => .ok (false, s)

/-- `linked_list_register_malloc` (lines 250-256). -/
def linked_list_register_malloc (malloc : Option MallocFn) (s : State) : Bool × State :=
  match malloc with
  | none => (false, s)
  | some f => (true, { s with malloc_fptr := some f })

/-- `linked_list_register_free` (lines 262-268). -/
def linked_list_register_free (free : Option FreeFn) (s : State) : Bool × State :=
  match free with
  | none => (false, s)
  | some f => (true, { s with free_fptr := some f })

/-! ## What it means for a list to have given contents -/

/-- The address a link into a run of cells holds: the address of the first cell,
or `tl` when the run is empty. -/
def firstAddr : List (Addr × Nat) → Option Addr → Option Addr
  | [], tl => tl
  | c :: _, _ => some c.1

/-- The cells `(address, value)` are laid out in the heap as a run of nodes, each
linked to the next and the last one linked to `tl`. -/
def Seg (h : Heap) : List (Addr × Nat) → Option Addr → Prop
  | [], _ => True
  | c :: rest, tl =>
    h c.1 = some (.node { data := c.2, next := firstAddr rest tl }) ∧ Seg h rest tl

/-- The header at `l` heads the `NULL`-terminated chain made of `cells`. -/
def IsList (h : Heap) (l : Addr) (cells : List (Addr × Nat)) : Prop :=
  h l = some (.linked_list { head := firstAddr cells none }) ∧ Seg h cells none

/-- The list whose header is at `l` holds the values `xs`, head first. -/
def Contents (h : Heap) (l : Addr) (xs : List Nat) : Prop :=
  ∃ cells, IsList h l cells ∧ cells.map Prod.snd = xs

/-- The iterator stored at `it` belongs to the list at `l`, which is made of
`cells`, and stands on the cell of index `j`: it holds that cell's address, the
index `j` and a copy of the cell's value. -/
def IterAt (h : Heap) (it l : Addr) (cells : List (Addr × Nat)) (j : Nat) : Prop :=
  IsList h l cells ∧
    ∃ c, cells[j]? = some c ∧
      h it = some (.iterator
        { ll := some l, current_node := some c.1, current_index := j, data := c.2 })

/-- The release-function contract: handing back the block at `p` changes nothing
at any other address. -/
def FreeFn.Local (f : FreeFn) : Prop :=
  ∀ (h : Heap) (p q : Addr), q ≠ p → f h p q = h q

/-- The acquire-function contract: an address that is handed out holds no live
block at the time of the call. -/
def MallocFn.Fresh (f : MallocFn) : Prop :=
  ∀ (k : Nat) (h : Heap) (p : Addr), f k h = some p → h p = none

/-! ## Sequences of calls on one list -/

/-- The number of nodes obtained from the acquire function so far: the answers
other than `NULL` in the log. -/
def nodes_acquired (s : State) : Nat := s.acquired.countP Option.isSome


/-- One call of a mutating function of the library on a fixed list. -/
inductive Op where
  | insert_front (data : Nat)
  | insert_end (data : Nat)
  | insert (index data : Nat)
  | remove (index : Nat)
deriving DecidableEq, Repr

/-- Whether the call is one of the three insertion functions. -/
def Op.is_insertion : Op → Bool
  | .remove _ => false
  | _ => true

/-- Performs the call on the list `ll`. -/
def Op.call (ll : Option Addr) (fuel : Nat) : Op → State → Except Err (Bool × State)
  | .insert_front data, s => linked_list_insert_front ll data s
  | .insert_end data, s => linked_list_insert_end ll data s fuel
  | .insert index data, s => linked_list_insert ll index data s
  | .remove index, s => linked_list_remove ll index s

/-- Performs the calls in order.  The result is the number of insertion calls
that returned `true`, the number of remove calls that returned `true`, and the
final state. -/
def run_calls (ll : Option Addr) (fuel : Nat) :
    List Op → State → Except Err (Nat × Nat × State)
  | [], s => .ok (0, 0, s)
  | op :: ops, s => do
    let (b, s) ← op.call ll fuel s
    let (k, r, s) ← run_calls ll fuel ops s
    .ok (if b && op.is_insertion then k + 1 else k,
         if b && !op.is_insertion then r + 1 else r, s)

/-- `k` successive calls of `linked_list_iterate` on one iterator: the results of
the calls, in order, and the final state. -/
def iterate_times (iter : Option Addr) : Nat → State → Except Err (List Bool × State)
  | 0, s => .ok ([], s)
  | k + 1, s => do
    let (b, s) ← linked_list_iterate iter s
    let (bs, s) ← iterate_times iter k s
    .ok (b :: bs, s)

/-! ## Concrete states used to instantiate the theorems -/

/-- An acquire function that hands out the addresses 100, 101, ... in turn, and
answers `NULL` when the address whose turn it is holds a live block. -/
def bump : MallocFn := fun k h => if (h (100 + k)).isNone then some (100 + k) else none

/-- A release function that unmaps the block. -/
def release : FreeFn := fun h p => h.set p none

/-- A heap with one list: the header at address 1 and the nodes at addresses
2, 3, 4, 5 holding 5, 10, 20, 30. -/
def heap4 : Heap := fun a =>
  match a with
  | 1 => some (.linked_list { head := some 2 })
  | 2 => some (.node { data := 5, next := some 3 })
  | 3 => some (.node { data := 10, next := some 4 })
  | 4 => some (.node { data := 20, next := some 5 })
  | 5 => some (.node { data := 30, next := none })
  | _ => none

/-- The cells of the list of `heap4`. -/
def cells4 : List (Addr × Nat) := [(2, 5), (3, 10), (4, 20), (5, 30)]

/-- A heap with one empty list, its header at address 1. -/
def heap0 : Heap := fun a =>
  match a with
  | 1 => some (.linked_list { head := none })
  | _ => none

/-- An acquire function that always answers `NULL`. -/
def exhausted : MallocFn := fun _ _ => none

/-- A heap with one list: the header at address 1 and the nodes at addresses
2, 3, 4 holding 10, 15, 20. -/
def heap3 : Heap := fun a =>
  match a with
  | 1 => some (.linked_list { head := some 2 })
  | 2 => some (.node { data := 10, next := some 3 })
  | 3 => some (.node { data := 15, next := some 4 })
  | 4 => some (.node { data := 20, next := none })
  | _ => none

/-- The cells of the list of `heap3`. -/
def cells3 : List (Addr × Nat) := [(2, 10), (3, 15), (4, 20)]

/-- A heap with the list of `heap3` and, at address 100, an iterator of that list
that stands on the last node. -/
def heap3_iter : Heap := fun a =>
  match a with
  | 100 => some (.iterator
      { ll := some 1, current_node := some 4, current_index := 2, data := 20 })
  | _ => heap3 a

/-- A state with both function pointers registered and the given heap. -/
def state_of (h : Heap) : State :=
  { malloc_fptr := some bump, free_fptr := some release, heap := h,
    acquired := [], released := [] }

/-- A state in which the registered acquire function always fails. -/
def state_exhausted (h : Heap) : State :=
  { malloc_fptr := some exhausted, free_fptr := some release, heap := h,
    acquired := [], released := [] }

/-- A state in which no function has been registered. -/
def state_unregistered (h : Heap) : State :=
  { malloc_fptr := none, free_fptr := none, heap := h, acquired := [], released := [] }

/-! ## Basic facts: the monad, heap updates, runs of cells -/

@[simp] theorem ok_bind {α β : Type} (a : α) (f : α → Except Err β) :
    (Except.ok a >>= f) = f a := rfl

@[simp] theorem error_bind {α β : Type} (e : Err) (f : α → Except Err β) :
    ((Except.error e : Except Err α) >>= f) = Except.error e := rfl

@[simp] theorem Heap.set_same (h : Heap) (a : Addr) (o : Option Obj) :
    h.set a o a = o := by
  simp [Heap.set]

theorem Heap.set_other (h : Heap) (a b : Addr) (o : Option Obj) (hne : b ≠ a) :
    h.set a o b = h b := by
  simp [Heap.set, hne]

@[simp] theorem State.store_heap (s : State) (a : Addr) (o : Obj) :
    (s.store a o).heap = s.heap.set a (some o) := rfl

@[simp] theorem State.store_malloc (s : State) (a : Addr) (o : Obj) :
    (s.store a o).malloc_fptr = s.malloc_fptr := rfl

@[simp] theorem State.store_free (s : State) (a : Addr) (o : Obj) :
    (s.store a o).free_fptr = s.free_fptr := rfl

@[simp] theorem State.store_acquired (s : State) (a : Addr) (o : Obj) :
    (s.store a o).acquired = s.acquired := rfl

@[simp] theorem State.store_released (s : State) (a : Addr) (o : Obj) :
    (s.store a o).released = s.released := rfl

theorem load_node_of_eq {h : Heap} {a : Addr} {n : node}
    (ha : h a = some (.node n)) : load_node h (some a) = .ok n := by
  simp [load_node, ha]

theorem load_list_of_eq {h : Heap} {a : Addr} {l : linked_list}
    (ha : h a = some (.linked_list l)) : load_list h (some a) = .ok l := by
  simp [load_list, ha]

theorem set_next_of_eq {s : State} {a : Addr} {n : node} (v : Option Addr)
    (ha : s.heap a = some (.node n)) :
    set_next s (some a) v = .ok (s.store a (.node { n with next := v })) := by
  simp [set_next, ha]

theorem set_head_of_eq {s : State} {a : Addr} {l : linked_list} (v : Option Addr)
    (ha : s.heap a = some (.linked_list l)) :
    set_head s (some a) v = .ok (s.store a (.linked_list { head := v })) := by
  simp [set_head, ha]

@[simp] theorem firstAddr_nil (tl : Option Addr) : firstAddr [] tl = tl := rfl

@[simp] theorem firstAddr_cons (c : Addr × Nat) (rest : List (Addr × Nat))
    (tl : Option Addr) : firstAddr (c :: rest) tl = some c.1 := rfl

theorem firstAddr_append (xs ys : List (Addr × Nat)) (tl : Option Addr) :
    firstAddr (xs ++ ys) tl = firstAddr xs (firstAddr ys tl) := by
  cases xs <;> rfl

@[simp] theorem Seg_nil (h : Heap) (tl : Option Addr) : Seg h [] tl ↔ True := Iff.rfl

@[simp] theorem Seg_cons (h : Heap) (c : Addr × Nat) (rest : List (Addr × Nat))
    (tl : Option Addr) :
    Seg h (c :: rest) tl ↔
      h c.1 = some (.node { data := c.2, next := firstAddr rest tl }) ∧ Seg h rest tl :=
  Iff.rfl

/-- A run of cells splits at any point: the front part is linked to the first
cell of the back part. -/
theorem Seg_append (h : Heap) (xs ys : List (Addr × Nat)) (tl : Option Addr) :
    Seg h (xs ++ ys) tl ↔ Seg h xs (firstAddr ys tl) ∧ Seg h ys tl := by
  induction xs with
  | nil => simp
  | cons c rest ih =>
    simp only [List.cons_append, Seg_cons, ih, firstAddr_append, and_assoc]

/-- A run of cells only depends on the heap at the addresses of its cells. -/
theorem Seg_frame {h h' : Heap} {cells : List (Addr × Nat)} {tl : Option Addr}
    (hs : Seg h cells tl) (hf : ∀ a ∈ cells.map Prod.fst, h' a = h a) :
    Seg h' cells tl := by
  induction cells with
  | nil => trivial
  | cons c rest ih =>
    obtain ⟨hc, hr⟩ := hs
    refine ⟨?_, ih hr ?_⟩
    · rw [hf c.1 (by simp)]; exact hc
    · intro a ha
      exact hf a (by simp only [List.map_cons, List.mem_cons]; exact Or.inr ha)

/-- Every cell of a run is a live node of the heap. -/
theorem Seg_live {h : Heap} {cells : List (Addr × Nat)} {tl : Option Addr}
    (hs : Seg h cells tl) {a : Addr} (ha : a ∈ cells.map Prod.fst) :
    ∃ n, h a = some (.node n) := by
  induction cells with
  | nil => simp at ha
  | cons c rest ih =>
    obtain ⟨hc, hr⟩ := hs
    simp only [List.map_cons, List.mem_cons] at ha
    rcases ha with rfl | ha
    · exact ⟨_, hc⟩
    · exact ih hr ha

/-- A tail of a run of cells is a run of cells. -/
theorem Seg_drop {h : Heap} {cells : List (Addr × Nat)} {tl : Option Addr}
    (hs : Seg h cells tl) (n : Nat) : Seg h (cells.drop n) tl := by
  have := (Seg_append h (cells.take n) (cells.drop n) tl).1 (by simpa using hs)
  exact this.2

/-- A `NULL`-terminated chain is determined by the heap and its first link. -/
theorem Seg_unique {h : Heap} {c₁ c₂ : List (Addr × Nat)}
    (h₁ : Seg h c₁ none) (h₂ : Seg h c₂ none)
    (hf : firstAddr c₁ none = firstAddr c₂ none) : c₁ = c₂ := by
  induction c₁ generalizing c₂ with
  | nil =>
    cases c₂ with
    | nil => rfl
    | cons b r => simp at hf
  | cons a r ih =>
    cases c₂ with
    | nil => simp at hf
    | cons b r₂ =>
      obtain ⟨ha, hr⟩ := h₁
      obtain ⟨hb, hr₂⟩ := h₂
      simp only [firstAddr_cons, Option.some.injEq] at hf
      rw [hf, hb] at ha
      simp only [Option.some.injEq, Obj.node.injEq, node.mk.injEq] at ha
      have := ih hr hr₂ ha.2.symm
      subst this
      have : a = b := Prod.ext hf ha.1.symm
      rw [this]

/-- The cells of a `NULL`-terminated chain sit at pairwise different addresses:
the chain is acyclic. -/
theorem Seg_nodup {h : Heap} {cells : List (Addr × Nat)} (hs : Seg h cells none) :
    (cells.map Prod.fst).Nodup := by
  induction cells with
  | nil => simp
  | cons c rest ih =>
    have hr : Seg h rest none := hs.2
    rw [List.map_cons, List.nodup_cons]
    refine ⟨?_, ih hr⟩
    intro hmem
    obtain ⟨d, hd, hdc⟩ := List.mem_map.1 hmem
    obtain ⟨pre, post, hsplit⟩ := List.append_of_mem hd
    have hsuf : Seg h (d :: post) none := by
      have := (Seg_append h pre (d :: post) none).1 (hsplit ▸ hr)
      exact this.2
    have heq : c :: rest = d :: post :=
      Seg_unique hs hsuf (by simp [hdc])
    have hlen := congrArg List.length heq
    rw [hsplit] at hlen
    simp at hlen
    omega

/-! ## The loops and the single calls, on the cells of a list -/


/-- What an updated heap holds at an address. -/
theorem Heap.set_apply (h : Heap) (a b : Addr) (o : Option Obj) :
    h.set a o b = if b = a then o else h b := rfl

/-- The walk of `linked_list_insert`, started at the head of a chain, stops at the
cell `n` steps further, or at `NULL` when the chain is shorter. -/
theorem insert_loop_seg {h : Heap} (n : Nat) {cells : List (Addr × Nat)}
    (hs : Seg h cells none) :
    insert_loop h n (firstAddr cells none) = .ok (firstAddr (cells.drop n) none) := by
  induction n generalizing cells with
  | zero => simp [insert_loop]
  | succ n ih =>
    cases cells with
    | nil => simp [insert_loop]
    | cons c rest =>
      obtain ⟨hc, hr⟩ := hs
      simp only [firstAddr_cons, insert_loop, load_node_of_eq hc, ok_bind, List.drop_succ_cons]
      exact ih hr

/-- A run of cells is not affected by a store outside its cells. -/
theorem Seg_set {h : Heap} {cells : List (Addr × Nat)} {tl : Option Addr}
    (hs : Seg h cells tl) {a : Addr} (o : Option Obj) (ha : a ∉ cells.map Prod.fst) :
    Seg (h.set a o) cells tl :=
  Seg_frame hs (fun b hb => Heap.set_other h a b o (fun e => ha (e ▸ hb)))

/-- `linked_list_insert` at an index within the list: the new cell is spliced in
at that index. -/
theorem insert_cells_ok {s : State} {l : Addr} {cells : List (Addr × Nat)} {f : MallocFn}
    {p : Addr} (i v : Nat)
    (hm : s.malloc_fptr = some f) (hp : f s.acquired.length s.heap = some p)
    (hfresh : s.heap p = none) (hl : IsList s.heap l cells) (hi : i ≤ cells.length) :
    ∃ s', linked_list_insert (some l) i v s = .ok (true, s') ∧
      IsList s'.heap l (cells.take i ++ (p, v) :: cells.drop i) ∧
      s'.malloc_fptr = s.malloc_fptr ∧ s'.free_fptr = s.free_fptr ∧
      s'.acquired = some p :: s.acquired ∧ s'.released = s.released := by
  obtain ⟨hhd, hseg⟩ := hl
  have hpl : l ≠ p := by
    rintro rfl; rw [hfresh] at hhd; cases hhd
  have hpc : p ∉ cells.map Prod.fst := fun hmem => by
    obtain ⟨n, hn⟩ := Seg_live hseg hmem
    rw [hfresh] at hn; cases hn
  simp only [linked_list_insert, call_malloc, hm, hp, ok_bind]
  by_cases h0 : i = 0
  · subst h0
    simp only [if_true, load_list, set_next, set_head, State.store_heap, Heap.set_apply,
      if_neg hpl, hhd, ok_bind, if_true]
    refine ⟨_, rfl, ⟨?_, ?_, ?_⟩, rfl, rfl, rfl, rfl⟩
    · simp [Heap.set_apply]
    · simp [Heap.set_apply, Ne.symm hpl]
    · exact Seg_set (Seg_set (Seg_set hseg _ hpc) _ hpc) _ (fun hmem => by
        obtain ⟨n, hn⟩ := Seg_live hseg hmem
        rw [hhd] at hn; cases hn)
  · obtain ⟨n, rfl⟩ : ∃ n, i = n + 1 := ⟨i - 1, by omega⟩
    have hn : n < cells.length := by omega
    obtain ⟨pre, c, post, hsplit, hpre⟩ :
        ∃ pre c post, cells = pre ++ c :: post ∧ pre.length = n :=
      ⟨cells.take n, cells[n], cells.drop (n + 1), by simp, by simp; omega⟩
    subst hsplit
    have hnd := Seg_nodup hseg
    have hseg1 := Seg_set hseg (some (Obj.node { data := v, next := none })) hpc
    have hwalk := insert_loop_seg n hseg1
    have hdrop : (pre ++ c :: post).drop n = c :: post := by
      rw [← hpre]; simp
    have htake : (pre ++ c :: post).take (n + 1) = pre ++ [c] := by
      rw [← hpre, List.take_append]; simp
    have hdrop1 : (pre ++ c :: post).drop (n + 1) = post := by
      rw [← hpre, List.drop_append]; simp
    rw [hdrop] at hwalk
    have hcp : c.1 ≠ p := fun e => hpc (by simp [← e])
    have hc1 := ((Seg_append _ _ _ _).1 hseg1).2.1
    have hc0 := ((Seg_append _ _ _ _).1 hseg).2.1
    simp only [if_neg h0, Nat.add_sub_cancel, State.store_heap, load_list, Heap.set_apply,
      if_neg hpl, hhd, ok_bind, hwalk, firstAddr_cons, load_node_of_eq hc1, set_next,
      if_true, if_neg hcp, hc0]
    refine ⟨_, rfl, ⟨?_, ?_⟩, rfl, rfl, rfl, rfl⟩
    · have hlc : l ≠ c.1 := fun e => by rw [e, hc0] at hhd; cases hhd
      simp only [State.store_heap, Heap.set_apply, if_neg hlc, if_neg hpl, hhd, htake, hdrop1,
        firstAddr_append, List.append_assoc, firstAddr_cons]
    · rw [htake, hdrop1, List.append_assoc]
      obtain ⟨hsp, -, hspost⟩ := (Seg_append _ _ _ _).1 hseg
      rw [List.map_append, List.map_cons, List.nodup_append] at hnd
      obtain ⟨-, hndc, hdisj⟩ := hnd
      have hcpre : c.1 ∉ pre.map Prod.fst := fun hmem =>
        hdisj hmem (by simp)
      have hcpost : c.1 ∉ post.map Prod.fst := (List.nodup_cons.1 hndc).1
      have hppre : p ∉ pre.map Prod.fst := fun hmem => hpc (by simp [List.mem_map] at hmem ⊢; tauto)
      have hppost : p ∉ post.map Prod.fst := fun hmem => hpc (by simp [List.mem_map] at hmem ⊢; tauto)
      refine (Seg_append _ _ _ _).2 ⟨?_, ?_, ?_, ?_⟩
      · exact Seg_set (Seg_set (Seg_set hsp _ hppre) _ hppre) _ hcpre
      · simp [Heap.set_apply]
      · simp [Heap.set_apply, Ne.symm hcp]
      · exact Seg_set (Seg_set (Seg_set hspost _ hppost) _ hppost) _ hcpost

/-- `linked_list_insert` at an index beyond the length: the call returns `false`,
the list keeps its cells, and the acquired node stays in the heap unlinked. -/
theorem insert_cells_out {s : State} {l : Addr} {cells : List (Addr × Nat)} {f : MallocFn}
    {p : Addr} (i v : Nat)
    (hm : s.malloc_fptr = some f) (hp : f s.acquired.length s.heap = some p)
    (hfresh : s.heap p = none) (hl : IsList s.heap l cells) (hi : cells.length < i) :
    ∃ s', linked_list_insert (some l) i v s = .ok (false, s') ∧
      IsList s'.heap l cells ∧
      s'.malloc_fptr = s.malloc_fptr ∧ s'.free_fptr = s.free_fptr ∧
      s'.acquired = some p :: s.acquired ∧ s'.released = s.released := by
  obtain ⟨hhd, hseg⟩ := hl
  have hpl : l ≠ p := by
    rintro rfl; rw [hfresh] at hhd; cases hhd
  have hpc : p ∉ cells.map Prod.fst := fun hmem => by
    obtain ⟨n, hn⟩ := Seg_live hseg hmem
    rw [hfresh] at hn; cases hn
  have h0 : i ≠ 0 := by omega
  have hseg1 := Seg_set hseg (some (Obj.node { data := v, next := none })) hpc
  have hwalk := insert_loop_seg (i - 1) hseg1
  rw [List.drop_of_length_le (by omega)] at hwalk
  simp only [linked_list_insert, call_malloc, hm, hp, ok_bind, if_neg h0, State.store_heap,
    load_list, Heap.set_apply, if_neg hpl, hhd, hwalk, firstAddr_nil]
  refine ⟨_, rfl, ⟨?_, hseg1⟩, rfl, rfl, rfl, rfl⟩
  simp [Heap.set_apply, hpl, hhd]

/-- `linked_list_insert` when the acquire call answers `NULL`. -/
theorem insert_null {s : State} {f : MallocFn} (ll : Option Addr) (i v : Nat)
    (hm : s.malloc_fptr = some f) (hp : f s.acquired.length s.heap = none) :
    ∃ s', linked_list_insert ll i v s = .ok (false, s') ∧ s'.heap = s.heap ∧
      s'.malloc_fptr = s.malloc_fptr ∧ s'.free_fptr = s.free_fptr ∧
      (ll ≠ none → s'.acquired = none :: s.acquired) ∧ s'.released = s.released := by
  cases ll with
  | none => exact ⟨s, rfl, rfl, rfl, rfl, fun h => absurd rfl h, rfl⟩
  | some l =>
    simp only [linked_list_insert, call_malloc, hm, hp, ok_bind]
    exact ⟨_, rfl, rfl, rfl, rfl, fun _ => rfl, rfl⟩

/-- `linked_list_insert_front` with a successful acquire: the new cell is first. -/
theorem insert_front_cells_ok {s : State} {l : Addr} {cells : List (Addr × Nat)}
    {f : MallocFn} {p : Addr} (v : Nat)
    (hm : s.malloc_fptr = some f) (hp : f s.acquired.length s.heap = some p)
    (hfresh : s.heap p = none) (hl : IsList s.heap l cells) :
    ∃ s', linked_list_insert_front (some l) v s = .ok (true, s') ∧
      IsList s'.heap l ((p, v) :: cells) ∧
      s'.malloc_fptr = s.malloc_fptr ∧ s'.free_fptr = s.free_fptr ∧
      s'.acquired = some p :: s.acquired ∧ s'.released = s.released := by
  obtain ⟨hhd, hseg⟩ := hl
  have hpl : l ≠ p := by
    rintro rfl; rw [hfresh] at hhd; cases hhd
  have hpc : p ∉ cells.map Prod.fst := fun hmem => by
    obtain ⟨n, hn⟩ := Seg_live hseg hmem
    rw [hfresh] at hn; cases hn
  simp only [linked_list_insert_front, call_malloc, hm, hp, ok_bind, load_list, hhd, set_head,
    State.store_heap, Heap.set_apply, if_neg hpl]
  refine ⟨_, rfl, ⟨?_, ?_, ?_⟩, rfl, rfl, rfl, rfl⟩
  · simp [Heap.set_apply]
  · simp [Heap.set_apply, Ne.symm hpl]
  · exact Seg_set (Seg_set hseg _ hpc) _ (fun hmem => by
      obtain ⟨n, hn⟩ := Seg_live hseg hmem
      rw [hhd] at hn; cases hn)

/-- `linked_list_insert_front` when the acquire call answers `NULL`. -/
theorem insert_front_null {s : State} {f : MallocFn} (ll : Option Addr) (v : Nat)
    (hm : s.malloc_fptr = some f) (hp : f s.acquired.length s.heap = none) :
    ∃ s', linked_list_insert_front ll v s = .ok (false, s') ∧ s'.heap = s.heap ∧
      s'.malloc_fptr = s.malloc_fptr ∧ s'.free_fptr = s.free_fptr ∧
      (ll ≠ none → s'.acquired = none :: s.acquired) ∧ s'.released = s.released := by
  cases ll with
  | none => exact ⟨s, rfl, rfl, rfl, rfl, fun h => absurd rfl h, rfl⟩
  | some l =>
    simp only [linked_list_insert_front, call_malloc, hm, hp, ok_bind]
    exact ⟨_, rfl, rfl, rfl, rfl, fun _ => rfl, rfl⟩

/-- The `for` loop of `linked_list_remove`, started at the head of a non-empty
chain, ends at the cell `n` steps further, or returns `false` when the chain is
not that long. -/
theorem remove_loop_seg {h : Heap} (n : Nat) {c : Addr × Nat} {rest : List (Addr × Nat)}
    (hs : Seg h (c :: rest) none) :
    remove_loop h n c.1 = .ok (firstAddr ((c :: rest).drop n) none) := by
  induction n generalizing c rest with
  | zero => simp [remove_loop]
  | succ n ih =>
    obtain ⟨hc, hr⟩ := hs
    cases rest with
    | nil => simp [remove_loop, load_node_of_eq hc]
    | cons d r =>
      simp only [remove_loop, load_node_of_eq hc, ok_bind, firstAddr_cons, List.drop_succ_cons]
      exact ih hr

/-- `linked_list_remove` at an index that is not below the length: `false`, and
the state is unchanged. -/
theorem remove_cells_out {s : State} {l : Addr} {cells : List (Addr × Nat)} (i : Nat)
    (hl : IsList s.heap l cells) (hi : cells.length ≤ i) :
    linked_list_remove (some l) i s = .ok (false, s) := by
  obtain ⟨hhd, hseg⟩ := hl
  cases cells with
  | nil => simp [linked_list_remove, load_list, hhd]
  | cons c rest =>
    have h0 : i ≠ 0 := by simp at hi; omega
    have hloop := remove_loop_seg (i - 1) hseg
    simp only [linked_list_remove, load_list, hhd, ok_bind, firstAddr_cons, if_neg h0, hloop]
    by_cases hlt : i - 1 < (c :: rest).length
    · have hdrop := List.drop_eq_getElem_cons hlt
      rw [List.drop_of_length_le (l := c :: rest) (i := i - 1 + 1) (by omega)] at hdrop
      have hd := Seg_drop hseg (i - 1)
      rw [hdrop] at hd
      simp [hdrop, load_node_of_eq hd.1]
    · rw [List.drop_of_length_le (by omega)]
      simp

/-- A run of cells is not affected by the release of a block outside it. -/
theorem Seg_free {h : Heap} {cells : List (Addr × Nat)} {tl : Option Addr} {ff : FreeFn}
    (hs : Seg h cells tl) (hloc : ff.Local) {a : Addr} (ha : a ∉ cells.map Prod.fst) :
    Seg (ff h a) cells tl :=
  Seg_frame hs (fun b hb => hloc h a b (fun e => ha (e ▸ hb)))

/-- `linked_list_remove` at an index below the length: the cell at that index is
unlinked and passed to the release function. -/
theorem remove_cells_ok {s : State} {l : Addr} {cells : List (Addr × Nat)} {ff : FreeFn}
    (i : Nat) (hf : s.free_fptr = some ff)
    (hl : IsList s.heap l cells) (hi : i < cells.length) :
    ∃ s', linked_list_remove (some l) i s = .ok (true, s') ∧
      (ff.Local → IsList s'.heap l (cells.take i ++ cells.drop (i + 1))) ∧
      s'.malloc_fptr = s.malloc_fptr ∧ s'.free_fptr = s.free_fptr ∧
      s'.acquired = s.acquired ∧ s'.released = cells[i].1 :: s.released := by
  obtain ⟨hhd, hseg⟩ := hl
  have hnd := Seg_nodup hseg
  have hlc : ∀ a ∈ cells.map Prod.fst, l ≠ a := fun a ha e => by
    obtain ⟨n, hn⟩ := Seg_live hseg ha
    rw [← e, hhd] at hn; cases hn
  by_cases h0 : i = 0
  · subst h0
    cases cells with
    | nil => simp at hi
    | cons c rest =>
      obtain ⟨hc, hr⟩ := hseg
      simp only [linked_list_remove, load_list, hhd, ok_bind, firstAddr_cons, if_true,
        load_node_of_eq hc, set_head, call_free, State.store_free, hf]
      refine ⟨_, rfl, fun hloc => ⟨?_, ?_⟩, rfl, rfl, rfl, rfl⟩
      · show ff _ c.1 l = _
        rw [hloc _ _ _ (hlc c.1 (by simp))]
        simp
      · have hcr : c.1 ∉ rest.map Prod.fst := (List.nodup_cons.1 hnd).1
        have hlr : l ∉ rest.map Prod.fst := fun hm => hlc l (by simp at hm ⊢; tauto) rfl
        simpa using Seg_free (Seg_set hr _ hlr) hloc hcr
  · obtain ⟨n, rfl⟩ : ∃ n, i = n + 1 := ⟨i - 1, by omega⟩
    obtain ⟨pre, c, d, post, hsplit, hpre⟩ :
        ∃ pre c d post, cells = pre ++ c :: d :: post ∧ pre.length = n :=
      ⟨cells.take n, cells[n], cells[n + 1], cells.drop (n + 1 + 1), by
        rw [← List.drop_eq_getElem_cons, ← List.drop_eq_getElem_cons, List.take_append_drop],
        by simp; omega⟩
    subst hsplit
    subst hpre
    obtain ⟨c0, rest0, hc0⟩ : ∃ c0 rest0, pre ++ c :: d :: post = c0 :: rest0 := by
      cases pre with
      | nil => exact ⟨_, _, rfl⟩
      | cons x xs => exact ⟨_, _, rfl⟩
    have hfirst : firstAddr (pre ++ c :: d :: post) none = some c0.1 := by rw [hc0]; rfl
    have hdrop : (pre ++ c :: d :: post).drop pre.length = c :: d :: post := by simp
    have htake : (pre ++ c :: d :: post).take (pre.length + 1) = pre ++ [c] := by
      rw [List.take_append]; simp
    have hdrop2 : (pre ++ c :: d :: post).drop (pre.length + 1 + 1) = post := by
      rw [Nat.add_assoc, List.drop_append]; simp
    have hget : (pre ++ c :: d :: post)[pre.length + 1] = d := by
      rw [List.getElem_append_right (by omega)]; simp
    have hloop := remove_loop_seg pre.length (hc0 ▸ hseg)
    rw [← hc0, hdrop] at hloop
    obtain ⟨hsp, hcc, hdd, hspost⟩ := (Seg_append _ _ _ _).1 hseg
    rw [firstAddr_cons] at hcc
    simp only [linked_list_remove, load_list, hhd, hfirst, ok_bind, if_neg h0,
      Nat.add_sub_cancel, hloop, firstAddr_cons, load_node_of_eq hcc, load_node_of_eq hdd,
      set_next, hcc, call_free, hf, State.store_free]
    rw [List.map_append, List.map_cons, List.map_cons, List.nodup_append] at hnd
    obtain ⟨-, hndc, hdisj⟩ := hnd
    have hdc : d.1 ≠ c.1 := fun e => by
      have := (List.nodup_cons.1 hndc).1
      simp [e] at this
    have hdpre : d.1 ∉ pre.map Prod.fst := fun hm => hdisj hm (by simp)
    have hcpre : c.1 ∉ pre.map Prod.fst := fun hm => hdisj hm (by simp)
    have hdpost : d.1 ∉ post.map Prod.fst :=
      (List.nodup_cons.1 (List.nodup_cons.1 hndc).2).1
    have hcpost : c.1 ∉ post.map Prod.fst := fun hm =>
      (List.nodup_cons.1 hndc).1 (List.mem_cons_of_mem _ hm)
    refine ⟨_, rfl, fun hloc => ⟨?_, ?_⟩, rfl, rfl, rfl, by rw [hget]; rfl⟩
    · show ff _ d.1 l = _
      rw [hloc _ _ _ (hlc d.1 (by simp)), htake, hdrop2]
      simp [Heap.set_apply, hlc c.1 (by simp), hhd, firstAddr_append]
    · rw [htake, hdrop2, List.append_assoc]
      refine (Seg_append _ _ _ _).2 ⟨?_, ?_, ?_⟩
      · exact Seg_free (Seg_set hsp _ hcpre) hloc hdpre
      · show ff _ d.1 c.1 = _
        rw [hloc _ _ _ (Ne.symm hdc)]
        simp
      · exact Seg_free (Seg_set hspost _ hcpost) hloc hdpost

/-- The loop of `linked_list_size` on a chain adds its length to the counter. -/
theorem size_loop_seg {h : Heap} {cells : List (Addr × Nat)} (hs : Seg h cells none)
    (fuel counter : Nat) (hfuel : cells.length ≤ fuel) (hc : counter < 2 ^ 64) :
    size_loop h fuel (firstAddr cells none) counter =
      .ok ((counter + cells.length) % 2 ^ 64) := by
  induction cells generalizing fuel counter with
  | nil =>
    cases fuel <;> simp only [firstAddr_nil, size_loop, List.length_nil, Nat.add_zero,
      Nat.mod_eq_of_lt hc]
  | cons c rest ih =>
    obtain ⟨hcell, hr⟩ := hs
    cases fuel with
    | zero => simp at hfuel
    | succ fuel =>
      simp only [firstAddr_cons, size_loop, load_node_of_eq hcell, ok_bind]
      rw [ih hr fuel _ (by simpa using hfuel) (Nat.mod_lt _ (by norm_num))]
      simp only [List.length_cons, Nat.mod_add_mod]
      congr 2
      omega

/-- `linked_list_size` returns the length of the list, modulo `2 ^ 64`. -/
theorem size_of_cells {s : State} {l : Addr} {cells : List (Addr × Nat)}
    (hl : IsList s.heap l cells) (fuel : Nat) (hfuel : cells.length ≤ fuel) :
    linked_list_size (some l) s fuel = .ok (cells.length % 2 ^ 64) := by
  obtain ⟨hhd, hseg⟩ := hl
  cases cells with
  | nil => simp [linked_list_size, load_list, hhd]
  | cons c rest =>
    have := size_loop_seg hseg fuel 0 hfuel (by norm_num)
    simp only [firstAddr_cons, Nat.zero_add] at this
    simp only [linked_list_size, load_list, hhd, ok_bind, firstAddr_cons, this]

/-- The loop of `linked_list_find` on a chain adds to the index the position of
the first occurrence, or the length when there is none. -/
theorem find_loop_seg {h : Heap} {cells : List (Addr × Nat)} (hs : Seg h cells none)
    (v fuel index : Nat) (hfuel : cells.length ≤ fuel) (hc : index < 2 ^ 64) :
    find_loop h v fuel (firstAddr cells none) index =
      .ok ((index + (cells.map Prod.snd).indexOf v) % 2 ^ 64) := by
  induction cells generalizing fuel index with
  | nil =>
    cases fuel <;> simp only [firstAddr_nil, find_loop, List.map_nil, List.indexOf_nil,
      Nat.add_zero, Nat.mod_eq_of_lt hc]
  | cons c rest ih =>
    obtain ⟨hcell, hr⟩ := hs
    cases fuel with
    | zero => simp at hfuel
    | succ fuel =>
      simp only [firstAddr_cons, find_loop, load_node_of_eq hcell, ok_bind, List.map_cons]
      by_cases hv : c.2 = v
      · simp only [hv, if_true, List.indexOf_cons_self, Nat.add_zero, Nat.mod_eq_of_lt hc]
      · rw [if_neg hv, ih hr fuel _ (by simpa using hfuel) (Nat.mod_lt _ (by norm_num)),
          List.indexOf_cons_ne _ hv]
        simp only [Nat.mod_add_mod]
        congr 2
        omega

/-- `linked_list_find` returns the position of the first occurrence, or the
length of the list when there is none (modulo `2 ^ 64`). -/
theorem find_of_cells {s : State} {l : Addr} {cells : List (Addr × Nat)}
    (hl : IsList s.heap l cells) (v fuel : Nat) (hfuel : cells.length ≤ fuel) :
    linked_list_find (some l) v s fuel =
      .ok ((cells.map Prod.snd).indexOf v % 2 ^ 64) := by
  obtain ⟨hhd, hseg⟩ := hl
  have := find_loop_seg hseg v fuel 0 hfuel (by norm_num)
  simp only [Nat.zero_add] at this
  simp only [linked_list_find, load_list, hhd, ok_bind, this]

/-- The loop of `linked_list_insert_end`: with enough fuel it ends with `NULL` in
the header's head field. -/
theorem insert_end_loop_cells {s : State} {l : Addr} {cells : List (Addr × Nat)}
    (hl : IsList s.heap l cells) (fuel : Nat) :
    (cells.length ≤ fuel →
      ∃ s', insert_end_loop l fuel s = .ok s' ∧
        s'.heap l = some (.linked_list { head := none })) ∧
    (fuel < cells.length → insert_end_loop l fuel s = .error .out_of_fuel) := by
  induction cells generalizing s fuel with
  | nil =>
    obtain ⟨hhd, -⟩ := hl
    refine ⟨fun _ => ⟨s, ?_, hhd⟩, fun h => by simp at h⟩
    unfold insert_end_loop
    simp [load_list, hhd]
  | cons c rest ih =>
    obtain ⟨hhd, hc, hr⟩ := hl
    have hlr : l ∉ rest.map Prod.fst := fun hm => by
      obtain ⟨n, hn⟩ := Seg_live hr hm
      rw [hhd] at hn; cases hn
    cases fuel with
    | zero =>
      refine ⟨fun h => by simp at h, fun _ => ?_⟩
      unfold insert_end_loop
      simp [load_list, hhd]
    | succ fuel =>
      have hnext : IsList (s.store l (.linked_list { head := firstAddr rest none })).heap l rest :=
        ⟨by simp, Seg_set hr _ hlr⟩
      have hstep : insert_end_loop l (fuel + 1) s =
          insert_end_loop l fuel (s.store l (.linked_list { head := firstAddr rest none })) := by
        rw [insert_end_loop]
        simp [load_list, hhd, load_node_of_eq hc, set_head]
      rw [hstep]
      obtain ⟨h1, h2⟩ := ih hnext fuel
      exact ⟨fun h => h1 (by simpa using h), fun h => h2 (by simpa using h)⟩

/-- `linked_list_insert_end` on a well-formed list never returns. -/
theorem insert_end_cells {s : State} {l : Addr} {cells : List (Addr × Nat)}
    (hl : IsList s.heap l cells) (v fuel : Nat) :
    linked_list_insert_end (some l) v s fuel =
      .error (if cells.length ≤ fuel then .fault else .out_of_fuel) := by
  obtain ⟨h1, h2⟩ := insert_end_loop_cells hl fuel
  by_cases hf : cells.length ≤ fuel
  · obtain ⟨s', hs', hh⟩ := h1 hf
    simp [linked_list_insert_end, hs', load_list, hh, set_data, hf]
  · simp [linked_list_insert_end, h2 (by omega), hf]


/-! ## The contract of the list operations -/


/-- The release function `release` meets the contract. -/
theorem release_local : release.Local := fun h p q hne => Heap.set_other h p q none hne

/-- The acquire function `bump` meets the contract. -/
theorem bump_fresh : bump.Fresh := by
  intro k h p hp
  unfold bump at hp
  split at hp
  · rename_i hnone
    cases hp
    simpa using hnone
  · cases hp

/-- The list of `heap4` is made of `cells4`. -/
theorem isList_heap4 : IsList heap4 1 cells4 := ⟨rfl, rfl, rfl, rfl, rfl, trivial⟩

/-- The list of `heap4` holds 5, 10, 20, 30. -/
theorem contents_heap4 : Contents heap4 1 [5, 10, 20, 30] := ⟨cells4, isList_heap4, rfl⟩

/-- The list of `heap0` is empty. -/
theorem isList_heap0 : IsList heap0 1 [] := ⟨rfl, trivial⟩

/-- The list of `heap0` has no contents. -/
theorem contents_heap0 : Contents heap0 1 [] := ⟨[], isList_heap0, rfl⟩

/-- The contents of a list are determined by the heap. -/
theorem Contents_unique {h : Heap} {l : Addr} {xs ys : List Nat}
    (hx : Contents h l xs) (hy : Contents h l ys) : xs = ys := by
  obtain ⟨c₁, ⟨hh₁, hs₁⟩, rfl⟩ := hx
  obtain ⟨c₂, ⟨hh₂, hs₂⟩, rfl⟩ := hy
  rw [hh₁] at hh₂
  simp only [Option.some.injEq, Obj.linked_list.injEq, linked_list.mk.injEq] at hh₂
  rw [Seg_unique hs₁ hs₂ hh₂]

/-- C1: on a list with contents `xs`, `linked_list_insert(list, i, v)` with
`i ≤ length xs` and a successful acquire returns `true` and leaves the contents
`take i xs ++ [v] ++ drop i xs`: the positions below `i` are unchanged, `v` is at
position `i`, and the former elements from position `i` on follow in order. -/
theorem linked_list_insert_in_range (s : State) (l : Addr) (xs : List Nat) (i v : Nat)
    (f : MallocFn) (p : Addr)
    (hm : s.malloc_fptr = some f) (hp : f s.acquired.length s.heap = some p)
    (hfresh : s.heap p = none) (hc : Contents s.heap l xs) (hi : i ≤ xs.length) :
    ∃ s', linked_list_insert (some l) i v s = .ok (true, s') ∧
      Contents s'.heap l (xs.take i ++ [v] ++ xs.drop i) ∧
      (∀ j, j < i → (xs.take i ++ [v] ++ xs.drop i)[j]? = xs[j]?) ∧
      (xs.take i ++ [v] ++ xs.drop i)[i]? = some v ∧
      (∀ j, i ≤ j → (xs.take i ++ [v] ++ xs.drop i)[j + 1]? = xs[j]?) := by
  obtain ⟨cells, hl, rfl⟩ := hc
  rw [List.length_map] at hi
  obtain ⟨s', hrun, hl', -⟩ := insert_cells_ok i v hm hp hfresh hl hi
  have hlen : (List.take i (cells.map Prod.snd)).length = i := by
    simp [List.length_take, hi]
  refine ⟨s', hrun, ⟨_, hl', by simp⟩, ?_, ?_, ?_⟩
  · intro j hj
    rw [List.append_assoc, List.getElem?_append_left (by omega), List.getElem?_take_of_lt hj]
  · rw [List.append_assoc, List.getElem?_append_right (by omega), hlen]
    simp
  · intro j hj
    rw [List.append_assoc, List.getElem?_append_right (by omega), hlen,
      show j + 1 - i = (j - i) + 1 by omega]
    simp only [List.singleton_append, List.getElem?_cons_succ, List.getElem?_drop]
    congr 1
    omega

/-- Instance of C1: inserting 15 at index 2 into the list 5, 10, 20, 30. -/
theorem linked_list_insert_in_range_witness :
    ∃ s', linked_list_insert (some 1) 2 15 (state_of heap4) = .ok (true, s') ∧
      Contents s'.heap 1 [5, 10, 15, 20, 30] ∧
      (∀ j, j < 2 → [5, 10, 15, 20, 30][j]? = [5, 10, 20, 30][j]?) ∧
      [5, 10, 15, 20, 30][2]? = some 15 ∧
      (∀ j, 2 ≤ j → [5, 10, 15, 20, 30][j + 1]? = [5, 10, 20, 30][j]?) :=
  linked_list_insert_in_range (state_of heap4) 1 [5, 10, 20, 30] 2 15 bump 100
    rfl rfl rfl contents_heap4 (by decide)

/-- C2: on a list with contents `xs`, `linked_list_remove(list, i)` with
`i < length xs` returns `true` and leaves the contents `xs` with the element at
position `i` erased: the positions below `i` are unchanged and every position
above `i` moves down by one. -/
theorem linked_list_remove_in_range (s : State) (l : Addr) (xs : List Nat) (i : Nat)
    (ff : FreeFn) (hf : s.free_fptr = some ff) (hloc : ff.Local)
    (hc : Contents s.heap l xs) (hi : i < xs.length) :
    ∃ s', linked_list_remove (some l) i s = .ok (true, s') ∧
      Contents s'.heap l (xs.eraseIdx i) ∧
      (∀ j, j < i → (xs.eraseIdx i)[j]? = xs[j]?) ∧
      (∀ j, i ≤ j → (xs.eraseIdx i)[j]? = xs[j + 1]?) := by
  obtain ⟨cells, hl, rfl⟩ := hc
  rw [List.length_map] at hi
  obtain ⟨s', hrun, hl', -⟩ := remove_cells_ok i hf hl hi
  refine ⟨s', hrun, ⟨_, hl' hloc, ?_⟩, ?_, ?_⟩
  · rw [List.eraseIdx_eq_take_drop_succ]
    simp
  · intro j hj
    exact List.getElem?_eraseIdx_of_lt _ _ _ hj
  · intro j hj
    exact List.getElem?_eraseIdx_of_ge _ _ _ hj

/-- Instance of C2: removing index 3 from the list 5, 10, 20, 30. -/
theorem linked_list_remove_in_range_witness :
    ∃ s', linked_list_remove (some 1) 3 (state_of heap4) = .ok (true, s') ∧
      Contents s'.heap 1 [5, 10, 20] ∧
      (∀ j, j < 3 → [5, 10, 20][j]? = [5, 10, 20, 30][j]?) ∧
      (∀ j, 3 ≤ j → [5, 10, 20][j]? = [5, 10, 20, 30][j + 1]?) :=
  linked_list_remove_in_range (state_of heap4) 1 [5, 10, 20, 30] 3 release
    rfl release_local contents_heap4 (by decide)

/-- On a list with contents `xs`, `linked_list_insert_end` never returns: with
enough fuel for the loop it ends in the dereference of the `NULL` that the loop
has left in `ll->head`. -/
theorem linked_list_insert_end_faults (s : State) (l : Addr) (xs : List Nat) (v fuel : Nat)
    (hc : Contents s.heap l xs) :
    linked_list_insert_end (some l) v s fuel =
      .error (if xs.length ≤ fuel then .fault else .out_of_fuel) := by
  obtain ⟨cells, hl, rfl⟩ := hc
  rw [List.length_map]
  exact insert_end_cells hl v fuel

/-- C3, at the failing input: `linked_list_insert_end(list, 10)` on an empty list
does not return `true` with contents `[10]`; it dereferences `NULL`, whatever the
fuel. -/
theorem linked_list_insert_end_empty_faults :
    Contents (state_of heap0).heap 1 [] ∧
      ∀ fuel, linked_list_insert_end (some 1) 10 (state_of heap0) fuel = .error .fault :=
  ⟨contents_heap0, fun fuel => by
    simpa using linked_list_insert_end_faults (state_of heap0) 1 [] 10 fuel contents_heap0⟩

/-- No position before `indexOf v xs` holds `v`. -/
theorem indexOf_first (v : Nat) (xs : List Nat) (j : Nat) (hj : j < xs.indexOf v) :
    xs[j]? ≠ some v := by
  induction xs generalizing j with
  | nil => simp at hj
  | cons x xs ih =>
    by_cases hx : x = v
    · rw [List.indexOf_cons_eq _ hx] at hj
      omega
    · rw [List.indexOf_cons_ne _ hx] at hj
      cases j with
      | zero => simpa using hx
      | succ j => simpa using ih j (by omega)

/-- C4: on a list with contents `xs` (of a length that `size_t` can hold) in which
`v` occurs, `linked_list_find(list, v)` returns the smallest index at which `xs`
holds `v`. -/
theorem linked_list_find_first (s : State) (l : Addr) (xs : List Nat) (v fuel : Nat)
    (hc : Contents s.heap l xs) (hlen : xs.length ≤ SIZE_MAX) (hfuel : xs.length ≤ fuel)
    (hv : v ∈ xs) :
    ∃ i, linked_list_find (some l) v s fuel = .ok i ∧ i < xs.length ∧ xs[i]? = some v ∧
      ∀ j, j < i → xs[j]? ≠ some v := by
  obtain ⟨cells, hl, rfl⟩ := hc
  have hlt := List.indexOf_lt_length.2 hv
  refine ⟨List.indexOf v (cells.map Prod.snd), ?_, hlt, ?_, ?_⟩
  · rw [find_of_cells hl v fuel (by simpa using hfuel)]
    congr 1
    apply Nat.mod_eq_of_lt
    unfold SIZE_MAX at hlen
    omega
  · exact List.getElem?_indexOf hv
  · exact fun j hj => indexOf_first v _ j hj

/-- Instance of C4: 20 is found at index 2 of the list 5, 10, 20, 30. -/
theorem linked_list_find_first_witness :
    ∃ i, linked_list_find (some 1) 20 (state_of heap4) 4 = .ok i ∧
      i < [5, 10, 20, 30].length ∧ [5, 10, 20, 30][i]? = some 20 ∧
      ∀ j, j < i → [5, 10, 20, 30][j]? ≠ some 20 :=
  linked_list_find_first (state_of heap4) 1 [5, 10, 20, 30] 20 4 contents_heap4
    (by decide) (by decide) (by decide)

/-- C5, at two failing inputs: 40 does not occur in the list 5, 10, 20, 30 and
`linked_list_find` returns 4, the length of the list; on the empty list it
returns 0.  Neither is `SIZE_MAX`. -/
theorem linked_list_find_miss_returns_length :
    (Contents (state_of heap4).heap 1 [5, 10, 20, 30] ∧ 40 ∉ [5, 10, 20, 30] ∧
      (∀ fuel, 4 ≤ fuel → linked_list_find (some 1) 40 (state_of heap4) fuel = .ok 4) ∧
      4 ≠ SIZE_MAX) ∧
    (Contents (state_of heap0).heap 1 [] ∧
      (∀ fuel, linked_list_find (some 1) 40 (state_of heap0) fuel = .ok 0) ∧
      0 ≠ SIZE_MAX) := by
  refine ⟨⟨contents_heap4, by decide, fun fuel hfuel => ?_, by decide⟩,
    ⟨contents_heap0, fun fuel => ?_, by decide⟩⟩
  · exact find_of_cells (s := state_of heap4) isList_heap4 40 fuel hfuel
  · exact find_of_cells (s := state_of heap0) isList_heap0 40 fuel (Nat.zero_le _)

/-- C6: on a list with contents `xs`, a successful `linked_list_insert(list, i, v)`
with `i ≤ length xs` followed by `linked_list_remove(list, i)` returns `true`
twice and leaves the contents `xs`. -/
theorem linked_list_insert_then_remove (s : State) (l : Addr) (xs : List Nat) (i v : Nat)
    (f : MallocFn) (p : Addr) (ff : FreeFn)
    (hm : s.malloc_fptr = some f) (hp : f s.acquired.length s.heap = some p)
    (hfresh : s.heap p = none) (hf : s.free_fptr = some ff) (hloc : ff.Local)
    (hc : Contents s.heap l xs) (hi : i ≤ xs.length) :
    ∃ s₁ s₂, linked_list_insert (some l) i v s = .ok (true, s₁) ∧
      linked_list_remove (some l) i s₁ = .ok (true, s₂) ∧
      Contents s₂.heap l xs := by
  obtain ⟨cells, hl, rfl⟩ := hc
  rw [List.length_map] at hi
  obtain ⟨s₁, hrun₁, hl₁, -, hf₁, -⟩ := insert_cells_ok i v hm hp hfresh hl hi
  have hlen : i < (cells.take i ++ (p, v) :: cells.drop i).length := by
    simp [List.length_take]
    omega
  obtain ⟨s₂, hrun₂, hl₂, -⟩ := remove_cells_ok i (hf₁.trans hf) hl₁ hlen
  refine ⟨s₁, s₂, hrun₁, hrun₂, _, hl₂ hloc, ?_⟩
  have hti : (cells.take i).length = i := by simp [List.length_take, hi]
  have h1 : (cells.take i ++ (p, v) :: cells.drop i).take i = cells.take i := by
    rw [List.take_append_of_le_length (by omega), List.take_take, Nat.min_self]
  have h2 : (cells.take i ++ (p, v) :: cells.drop i).drop (i + 1) = cells.drop i := by
    conv_lhs => rw [show i + 1 = (cells.take i).length + 1 by omega]
    rw [List.drop_append]
    rfl
  rw [h1, h2, List.take_append_drop]

/-- Instance of C6: inserting 15 at index 2 of 5, 10, 20, 30 and removing index 2. -/
theorem linked_list_insert_then_remove_witness :
    ∃ s₁ s₂, linked_list_insert (some 1) 2 15 (state_of heap4) = .ok (true, s₁) ∧
      linked_list_remove (some 1) 2 s₁ = .ok (true, s₂) ∧
      Contents s₂.heap 1 [5, 10, 20, 30] :=
  linked_list_insert_then_remove (state_of heap4) 1 [5, 10, 20, 30] 2 15 bump 100 release
    rfl rfl rfl rfl release_local contents_heap4 (by decide)

/-- C8: on a list with contents `xs`, `linked_list_insert_front(list, v)` with a
successful acquire returns `true` and leaves the contents `[v] ++ xs`; the new
node is the head. -/
theorem linked_list_insert_front_spec (s : State) (l : Addr) (xs : List Nat) (v : Nat)
    (f : MallocFn) (p : Addr)
    (hm : s.malloc_fptr = some f) (hp : f s.acquired.length s.heap = some p)
    (hfresh : s.heap p = none) (hc : Contents s.heap l xs) :
    ∃ s', linked_list_insert_front (some l) v s = .ok (true, s') ∧
      Contents s'.heap l ([v] ++ xs) ∧
      s'.heap l = some (.linked_list { head := some p }) ∧
      ∃ nx, s'.heap p = some (.node { data := v, next := nx }) := by
  obtain ⟨cells, hl, rfl⟩ := hc
  obtain ⟨s', hrun, hl', -⟩ := insert_front_cells_ok v hm hp hfresh hl
  exact ⟨s', hrun, ⟨_, hl', rfl⟩, hl'.1, _, hl'.2.1⟩

/-- Instance of C8: inserting 7 in front of the list 5, 10, 20, 30. -/
theorem linked_list_insert_front_spec_witness :
    ∃ s', linked_list_insert_front (some 1) 7 (state_of heap4) = .ok (true, s') ∧
      Contents s'.heap 1 ([7] ++ [5, 10, 20, 30]) ∧
      s'.heap 1 = some (.linked_list { head := some 100 }) ∧
      ∃ nx, s'.heap 100 = some (.node { data := 7, next := nx }) :=
  linked_list_insert_front_spec (state_of heap4) 1 [5, 10, 20, 30] 7 bump 100
    rfl rfl rfl contents_heap4

/-- C9: on a list with contents `xs`, `linked_list_insert(list, i, v)` with
`i > length xs` returns `false` and leaves the contents `xs`, whether the acquire
call fails or succeeds. -/
theorem linked_list_insert_out_of_range (s : State) (l : Addr) (xs : List Nat) (i v : Nat)
    (f : MallocFn) (hm : s.malloc_fptr = some f)
    (hfresh : ∀ p, f s.acquired.length s.heap = some p → s.heap p = none)
    (hc : Contents s.heap l xs) (hi : xs.length < i) :
    ∃ s', linked_list_insert (some l) i v s = .ok (false, s') ∧ Contents s'.heap l xs := by
  obtain ⟨cells, hl, rfl⟩ := hc
  rw [List.length_map] at hi
  cases hp : f s.acquired.length s.heap with
  | none =>
    obtain ⟨s', hrun, hh, -⟩ := insert_null (some l) i v hm hp
    exact ⟨s', hrun, cells, hh ▸ hl, rfl⟩
  | some p =>
    obtain ⟨s', hrun, hl', -⟩ := insert_cells_out i v hm hp (hfresh p hp) hl hi
    exact ⟨s', hrun, cells, hl', rfl⟩

/-- Instance of C9: inserting at index 5 into the four-element list 5, 10, 20, 30. -/
theorem linked_list_insert_out_of_range_witness :
    ∃ s', linked_list_insert (some 1) 5 15 (state_of heap4) = .ok (false, s') ∧
      Contents s'.heap 1 [5, 10, 20, 30] :=
  linked_list_insert_out_of_range (state_of heap4) 1 [5, 10, 20, 30] 5 15 bump rfl
    (fun p hp => bump_fresh _ _ p hp) contents_heap4 (by decide)

/-- C10: `linked_list_remove(list, i)` returns `false` and changes nothing when the
list is `NULL`, when it is empty, and when `i ≥ length xs`; on a list with
contents `xs` it returns `true` exactly when `i < length xs`. -/
theorem linked_list_remove_false_cases (s : State) (l : Addr) (xs : List Nat) (i : Nat)
    (ff : FreeFn) (hf : s.free_fptr = some ff) (hc : Contents s.heap l xs) :
    linked_list_remove none i s = .ok (false, s) ∧
      (xs = [] → linked_list_remove (some l) i s = .ok (false, s)) ∧
      (xs.length ≤ i → linked_list_remove (some l) i s = .ok (false, s)) ∧
      ∃ b s', linked_list_remove (some l) i s = .ok (b, s') ∧ (b = true ↔ i < xs.length) := by
  obtain ⟨cells, hl, rfl⟩ := hc
  rw [List.length_map]
  refine ⟨rfl, fun he => ?_, fun hi => remove_cells_out i hl hi, ?_⟩
  · exact remove_cells_out i hl (by
      have := congrArg List.length he
      simp at this
      simp [this])
  · by_cases hi : i < cells.length
    · obtain ⟨s', hrun, -⟩ := remove_cells_ok i hf hl hi
      exact ⟨true, s', hrun, by simp [hi]⟩
    · exact ⟨false, s, remove_cells_out i hl (by omega), by simp [hi]⟩

/-- Instance of C10: index 4 on the four-element list 5, 10, 20, 30. -/
theorem linked_list_remove_false_cases_witness :
    linked_list_remove none 4 (state_of heap4) = .ok (false, state_of heap4) ∧
      ([5, 10, 20, 30] = [] →
        linked_list_remove (some 1) 4 (state_of heap4) = .ok (false, state_of heap4)) ∧
      ([5, 10, 20, 30].length ≤ 4 →
        linked_list_remove (some 1) 4 (state_of heap4) = .ok (false, state_of heap4)) ∧
      ∃ b s', linked_list_remove (some 1) 4 (state_of heap4) = .ok (b, s') ∧
        (b = true ↔ 4 < [5, 10, 20, 30].length) :=
  linked_list_remove_false_cases (state_of heap4) 1 [5, 10, 20, 30] 4 release rfl
    contents_heap4

/-- One call other than `insert_end`, on a list made of `cells` and with
well-behaved acquire and release functions: the call returns, the list is again
well formed, and its length has moved by one exactly when the call returned
`true`. -/
theorem Op.call_cells {s : State} {l : Addr} {cells : List (Addr × Nat)} {f : MallocFn}
    {ff : FreeFn} (op : Op) (fuel : Nat) (hop : ∀ v, op ≠ Op.insert_end v)
    (hm : s.malloc_fptr = some f) (hfr : f.Fresh) (hf : s.free_fptr = some ff)
    (hloc : ff.Local) (hl : IsList s.heap l cells) :
    ∃ b s' cells', op.call (some l) fuel s = .ok (b, s') ∧ IsList s'.heap l cells' ∧
      s'.malloc_fptr = some f ∧ s'.free_fptr = some ff ∧
      cells'.length + (if b && !op.is_insertion then 1 else 0) =
        cells.length + (if b && op.is_insertion then 1 else 0) := by
  cases op with
  | insert_end v => exact absurd rfl (hop v)
  | insert_front v =>
    cases hp : f s.acquired.length s.heap with
    | none =>
      obtain ⟨s', hrun, hh, hm', hf', -⟩ := insert_front_null (some l) v hm hp
      exact ⟨false, s', cells, hrun, hh ▸ hl, hm'.trans hm, hf'.trans hf, by simp⟩
    | some p =>
      obtain ⟨s', hrun, hl', hm', hf', -⟩ :=
        insert_front_cells_ok v hm hp (hfr _ _ _ hp) hl
      exact ⟨true, s', _, hrun, hl', hm'.trans hm, hf'.trans hf, by simp [Op.is_insertion]⟩
  | insert i v =>
    cases hp : f s.acquired.length s.heap with
    | none =>
      obtain ⟨s', hrun, hh, hm', hf', -⟩ := insert_null (some l) i v hm hp
      exact ⟨false, s', cells, hrun, hh ▸ hl, hm'.trans hm, hf'.trans hf, by simp⟩
    | some p =>
      by_cases hi : i ≤ cells.length
      · obtain ⟨s', hrun, hl', hm', hf', -⟩ :=
          insert_cells_ok i v hm hp (hfr _ _ _ hp) hl hi
        refine ⟨true, s', _, hrun, hl', hm'.trans hm, hf'.trans hf, ?_⟩
        simp [Op.is_insertion, List.length_take]
        omega
      · obtain ⟨s', hrun, hl', hm', hf', -⟩ :=
          insert_cells_out i v hm hp (hfr _ _ _ hp) hl (by omega)
        exact ⟨false, s', cells, hrun, hl', hm'.trans hm, hf'.trans hf, by simp⟩
  | remove i =>
    by_cases hi : i < cells.length
    · obtain ⟨s', hrun, hl', hm', hf', -⟩ := remove_cells_ok i hf hl hi
      refine ⟨true, s', _, hrun, hl' hloc, hm'.trans hm, hf'.trans hf, ?_⟩
      simp [Op.is_insertion, List.length_take]
      omega
    · exact ⟨false, s, cells, remove_cells_out i hl (by omega), hl, hm, hf, by simp⟩

/-- A sequence of calls without `insert_end`, with well-behaved acquire and
release functions: every call returns, and the final length is the initial
length plus the successful insertions minus the successful removals. -/
theorem run_calls_cells {l : Addr} {f : MallocFn} {ff : FreeFn} (fuel : Nat) (ops : List Op)
    (hops : ∀ op ∈ ops, ∀ v, op ≠ Op.insert_end v) (hfr : f.Fresh) (hloc : ff.Local)
    {s : State} {cells : List (Addr × Nat)}
    (hm : s.malloc_fptr = some f) (hf : s.free_fptr = some ff) (hl : IsList s.heap l cells) :
    ∃ k r s' cells', run_calls (some l) fuel ops s = .ok (k, r, s') ∧
      IsList s'.heap l cells' ∧ cells'.length + r = cells.length + k := by
  induction ops generalizing s cells with
  | nil => exact ⟨0, 0, s, cells, rfl, hl, rfl⟩
  | cons op ops ih =>
    obtain ⟨b, s₁, cells₁, hcall, hl₁, hm₁, hf₁, hlen₁⟩ :=
      Op.call_cells op fuel (hops op (by simp)) hm hfr hf hloc hl
    obtain ⟨k, r, s', cells', hrun, hl', hlen'⟩ :=
      ih (fun o ho => hops o (by simp [ho])) hm₁ hf₁ hl₁
    refine ⟨if b && op.is_insertion then k + 1 else k,
      if b && !op.is_insertion then r + 1 else r, s', cells',
      by simp only [run_calls, hcall, ok_bind, hrun], hl', ?_⟩
    cases b <;> cases hins : op.is_insertion <;> simp_all <;> omega

/-- The part of C7 that the source does satisfy: after any sequence of
`insert_front`, `insert` and `remove` calls on an empty list, of which `k`
insertions and `r` removals returned `true`, `linked_list_size` returns `k - r`. -/
theorem size_consistency_without_insert_end (s : State) (l : Addr) (f : MallocFn) (ff : FreeFn)
    (ops : List Op) (fuel : Nat)
    (hops : ∀ op ∈ ops, ∀ v, op ≠ Op.insert_end v) (hfr : f.Fresh) (hloc : ff.Local)
    (hm : s.malloc_fptr = some f) (hf : s.free_fptr = some ff) (hc : Contents s.heap l []) :
    ∃ k r s', run_calls (some l) fuel ops s = .ok (k, r, s') ∧ r ≤ k ∧
      ∀ fuel', k - r ≤ fuel' → k - r ≤ SIZE_MAX →
        linked_list_size (some l) s' fuel' = .ok (k - r) := by
  obtain ⟨cells, hl, hnil⟩ := hc
  have hcells : cells = [] := by simpa using hnil
  subst hcells
  obtain ⟨k, r, s', cells', hrun, hl', hlen⟩ := run_calls_cells fuel ops hops hfr hloc hm hf hl
  simp only [List.length_nil, Nat.zero_add] at hlen
  refine ⟨k, r, s', hrun, by omega, fun fuel' hfuel hmax => ?_⟩
  rw [size_of_cells hl' fuel' (by omega)]
  congr 1
  have : cells'.length = k - r := by omega
  rw [this]
  apply Nat.mod_eq_of_lt
  unfold SIZE_MAX at hmax
  omega

/-- An instance of the above: five calls on an empty list. -/
theorem size_consistency_instance :
    ∃ k r s', run_calls (some 1) 0
        [.insert_front 10, .insert 1 20, .insert 5 99, .remove 0, .remove 7]
        (state_of heap0) = .ok (k, r, s') ∧ r ≤ k ∧
      ∀ fuel', k - r ≤ fuel' → k - r ≤ SIZE_MAX →
        linked_list_size (some 1) s' fuel' = .ok (k - r) :=
  size_consistency_without_insert_end (state_of heap0) 1 bump release _ 0
    (by intro op hop v h; subst h; simp at hop) bump_fresh release_local rfl rfl
    contents_heap0

/-- The same five calls, evaluated: two insertions and one removal return `true`,
the size is 1 and the list holds 20.  The insertion at index 5 returned `false`
after acquiring the block at 102, which is neither linked nor released. -/
theorem run_calls_example :
    ∃ s', run_calls (some 1) 0
        [.insert_front 10, .insert 1 20, .insert 5 99, .remove 0, .remove 7]
        (state_of heap0) = .ok (2, 1, s') ∧
      linked_list_size (some 1) s' 1 = .ok 1 ∧ Contents s'.heap 1 [20] ∧
      s'.acquired = [some 102, some 101, some 100] ∧ s'.released = [100] :=
  ⟨_, rfl, rfl, ⟨[(101, 20)], ⟨rfl, rfl, trivial⟩, rfl⟩, rfl, rfl⟩

/-- C7, at the failing input: the one-call sequence `insert_end(10)` on an empty
list does not end with size 1; the call dereferences `NULL`, whatever the fuel. -/
theorem run_calls_insert_end_faults :
    Contents (state_of heap0).heap 1 [] ∧
      ∀ fuel, run_calls (some 1) fuel [Op.insert_end 10] (state_of heap0) = .error .fault := by
  refine ⟨contents_heap0, fun fuel => ?_⟩
  have h := insert_end_cells (s := state_of heap0) isList_heap0 10 fuel
  simp only [List.length_nil, Nat.zero_le, if_true] at h
  simp only [run_calls, Op.call, h, error_bind]


/-! ## Iterators and destruction, on the cells of a list -/

/-- The walk of `linked_list_create_iterator`, started at the head of a chain,
ends at the cell `n` steps further when the chain has that many cells, at `NULL`
when `n` is the length, and dereferences `NULL` when the chain is shorter. -/
theorem create_iterator_loop_seg {h : Heap} (n : Nat) {cells : List (Addr × Nat)}
    (hs : Seg h cells none) :
    create_iterator_loop h n (firstAddr cells none) =
      if n ≤ cells.length then .ok (firstAddr (cells.drop n) none) else .error .fault := by
  induction n generalizing cells with
  | zero => simp [create_iterator_loop]
  | succ n ih =>
    cases cells with
    | nil => simp [create_iterator_loop, load_node]
    | cons c rest =>
      obtain ⟨hc, hr⟩ := hs
      simp only [firstAddr_cons, create_iterator_loop, load_node_of_eq hc, ok_bind,
        List.drop_succ_cons, List.length_cons, Nat.add_le_add_iff_right]
      exact ih hr

/-- The cell of index `i` of a chain is a node that holds its value and the
address of the next cell. -/
theorem Seg_getElem {h : Heap} {cells : List (Addr × Nat)} (hs : Seg h cells none)
    {i : Nat} {c : Addr × Nat} (hc : cells[i]? = some c) :
    h c.1 = some (.node { data := c.2, next := firstAddr (cells.drop (i + 1)) none }) ∧
      firstAddr (cells.drop i) none = some c.1 := by
  have hi : i < cells.length := by
    by_contra hcon
    rw [List.getElem?_eq_none (by omega)] at hc
    cases hc
  have hd := List.drop_eq_getElem_cons hi
  have hce : cells[i] = c := by
    rw [List.getElem?_eq_getElem hi] at hc
    exact Option.some.inj hc
  rw [hce] at hd
  have := Seg_drop hs i
  rw [hd] at this
  exact ⟨this.1, by rw [hd]; rfl⟩

theorem load_iter_of_eq {h : Heap} {a : Addr} {i : iterator}
    (ha : h a = some (.iterator i)) : load_iter h (some a) = .ok i := by
  simp [load_iter, ha]

/-- `linked_list_create_iterator` at an index below the length, with a successful
acquire: the new iterator stands on the cell of that index and the list is
untouched. -/
theorem create_iterator_cells_ok {s : State} {l : Addr} {cells : List (Addr × Nat)}
    {f : MallocFn} {it : Addr} {i : Nat}
    (hm : s.malloc_fptr = some f) (hp : f s.acquired.length s.heap = some it)
    (hfresh : s.heap it = none) (hl : IsList s.heap l cells) (hi : i < cells.length) :
    ∃ s', linked_list_create_iterator (some l) i s = .ok (some it, s') ∧
      IterAt s'.heap it l cells i ∧
      s'.malloc_fptr = s.malloc_fptr ∧ s'.free_fptr = s.free_fptr ∧
      s'.acquired = some it :: s.acquired ∧ s'.released = s.released := by
  obtain ⟨hhd, hseg⟩ := hl
  have hil : l ≠ it := by
    rintro rfl; rw [hfresh] at hhd; cases hhd
  have hic : it ∉ cells.map Prod.fst := fun hmem => by
    obtain ⟨n, hn⟩ := Seg_live hseg hmem
    rw [hfresh] at hn; cases hn
  have hget : cells[i]? = some cells[i] := List.getElem?_eq_getElem hi
  obtain ⟨hnode, hfirst⟩ := Seg_getElem hseg hget
  have hloop := create_iterator_loop_seg i hseg
  rw [if_pos (by omega), hfirst] at hloop
  simp only [linked_list_create_iterator, load_list_of_eq hhd, ok_bind, hloop, call_malloc, hm,
    hp, load_node_of_eq hnode]
  refine ⟨_, rfl, ⟨⟨?_, ?_⟩, cells[i], hget, ?_⟩, rfl, rfl, rfl, rfl⟩
  · simp [Heap.set_apply, hil, hhd]
  · exact Seg_set hseg _ hic
  · simp [Heap.set_apply]

/-- `linked_list_create_iterator` at an index that is not below the length
dereferences `NULL`: in the walk when the index exceeds the length, and at
`node_ptr->data` when it equals the length. -/
theorem create_iterator_cells_out {s : State} {l : Addr} {cells : List (Addr × Nat)}
    {i : Nat} (hl : IsList s.heap l cells) (hi : cells.length ≤ i) :
    linked_list_create_iterator (some l) i s = .error .fault := by
  obtain ⟨hhd, hseg⟩ := hl
  have hloop := create_iterator_loop_seg i hseg
  simp only [linked_list_create_iterator, load_list_of_eq hhd, ok_bind, hloop]
  by_cases hlt : i ≤ cells.length
  · rw [if_pos hlt, List.drop_of_length_le hi]
    simp only [firstAddr_nil, ok_bind, call_malloc]
    cases hm : s.malloc_fptr with
    | none => rfl
    | some f =>
      simp only [ok_bind]
      cases hp : f s.acquired.length s.heap with
      | none => rfl
      | some it => simp [load_node]
  · rw [if_neg hlt]
    rfl

/-- One call of `linked_list_iterate` on an iterator that stands on a cell with a
successor: it returns `true` and the iterator stands on the next cell. -/
theorem iterate_cells_next {s : State} {it l : Addr} {cells : List (Addr × Nat)} {j : Nat}
    (hit : IterAt s.heap it l cells j) (hj : j + 1 < cells.length) (hmax : j + 1 < 2 ^ 64) :
    ∃ s', linked_list_iterate (some it) s = .ok (true, s') ∧
      IterAt s'.heap it l cells (j + 1) ∧
      s'.malloc_fptr = s.malloc_fptr ∧ s'.free_fptr = s.free_fptr ∧
      s'.acquired = s.acquired ∧ s'.released = s.released := by
  obtain ⟨⟨hhd, hseg⟩, c, hc, hiter⟩ := hit
  have hil : l ≠ it := by
    rintro rfl; rw [hiter] at hhd; cases hhd
  have hic : it ∉ cells.map Prod.fst := fun hmem => by
    obtain ⟨n, hn⟩ := Seg_live hseg hmem
    rw [hiter] at hn; cases hn
  obtain ⟨hnode, -⟩ := Seg_getElem hseg hc
  have hget : cells[j + 1]? = some cells[j + 1] := List.getElem?_eq_getElem hj
  obtain ⟨hnode', hfirst'⟩ := Seg_getElem hseg hget
  have hne : cells[j + 1].1 ≠ it := fun e => hic (by
    rw [← e]; exact List.mem_map_of_mem _ (List.getElem_mem _))
  rw [hfirst'] at hnode
  have hnode₂ : ∀ o, s.heap.set it o cells[j + 1].1 =
      some (.node { data := cells[j + 1].2,
                    next := firstAddr (cells.drop (j + 1 + 1)) none }) := fun o => by
    rw [Heap.set_other _ _ _ _ hne]
    exact hnode'
  simp only [linked_list_iterate, load_iter_of_eq hiter, ok_bind, load_node_of_eq hnode,
    State.store_heap, load_node_of_eq (hnode₂ _), Nat.mod_eq_of_lt hmax]
  refine ⟨_, rfl, ⟨⟨?_, ?_⟩, cells[j + 1], hget, ?_⟩, rfl, rfl, rfl, rfl⟩
  · simp [Heap.set_apply, hil, hhd]
  · exact Seg_set (Seg_set hseg _ hic) _ hic
  · simp [Heap.set_apply]

/-- One call of `linked_list_iterate` on an iterator that stands on the last
cell: it returns `false` and changes nothing. -/
theorem iterate_cells_last {s : State} {it l : Addr} {cells : List (Addr × Nat)} {j : Nat}
    (hit : IterAt s.heap it l cells j) (hj : j + 1 = cells.length) :
    linked_list_iterate (some it) s = .ok (false, s) := by
  obtain ⟨⟨hhd, hseg⟩, c, hc, hiter⟩ := hit
  obtain ⟨hnode, -⟩ := Seg_getElem hseg hc
  rw [List.drop_of_length_le (by omega)] at hnode
  simp only [linked_list_iterate, load_iter_of_eq hiter, ok_bind, load_node_of_eq hnode,
    firstAddr_nil]

/-- Successive calls of `linked_list_iterate` while cells remain: each returns
`true` and moves the iterator one cell on. -/
theorem iterate_times_cells {it l : Addr} {cells : List (Addr × Nat)} (k : Nat) {s : State}
    {j : Nat} (hit : IterAt s.heap it l cells j) (hjk : j + k < cells.length)
    (hmax : cells.length ≤ 2 ^ 64) :
    ∃ s', iterate_times (some it) k s = .ok (List.replicate k true, s') ∧
      IterAt s'.heap it l cells (j + k) ∧
      s'.malloc_fptr = s.malloc_fptr ∧ s'.free_fptr = s.free_fptr ∧
      s'.acquired = s.acquired ∧ s'.released = s.released := by
  induction k generalizing s j with
  | zero => exact ⟨s, rfl, hit, rfl, rfl, rfl, rfl⟩
  | succ k ih =>
    obtain ⟨s₁, hrun₁, hit₁, hm₁, hf₁, ha₁, hr₁⟩ :=
      iterate_cells_next hit (by omega) (by omega)
    obtain ⟨s', hrun, hit', hm', hf', ha', hr'⟩ := ih hit₁ (by omega)
    refine ⟨s', ?_, ?_, hm'.trans hm₁, hf'.trans hf₁, ha'.trans ha₁, hr'.trans hr₁⟩
    · simp only [iterate_times, hrun₁, ok_bind, hrun, List.replicate_succ]
    · rw [show j + (k + 1) = j + 1 + k by omega]
      exact hit'

/-- The loop of `linked_list_delete` on a chain: with enough fuel it passes the
cells to the release function, once each and in chain order, and touches nothing
else. -/
theorem delete_loop_seg {ff : FreeFn} (hloc : ff.Local) {cells : List (Addr × Nat)}
    {s : State} (fuel : Nat) (hf : s.free_fptr = some ff) (hs : Seg s.heap cells none)
    (hfuel : cells.length ≤ fuel) :
    ∃ s', delete_loop fuel (firstAddr cells none) s = .ok s' ∧
      s'.released = (cells.map Prod.fst).reverse ++ s.released ∧
      (∀ a, a ∉ cells.map Prod.fst → s'.heap a = s.heap a) ∧
      s'.malloc_fptr = s.malloc_fptr ∧ s'.free_fptr = s.free_fptr ∧
      s'.acquired = s.acquired := by
  induction cells generalizing s fuel with
  | nil =>
    refine ⟨s, ?_, by simp, fun _ _ => rfl, rfl, rfl, rfl⟩
    cases fuel <;> rfl
  | cons c rest ih =>
    have hnd := Seg_nodup hs
    obtain ⟨hc, hr⟩ := hs
    have hcr : c.1 ∉ rest.map Prod.fst := (List.nodup_cons.1 hnd).1
    cases fuel with
    | zero => simp at hfuel
    | succ fuel =>
      simp only [firstAddr_cons, delete_loop, load_node_of_eq hc, ok_bind, call_free, hf]
      obtain ⟨s', hrun, hrel, hframe, hm', hf', ha'⟩ :=
        ih (s := { s with heap := ff s.heap c.1, released := c.1 :: s.released }) fuel hf
          (Seg_free hr hloc hcr) (by simpa using hfuel)
      simp only [hf] at hrun hf'
      refine ⟨s', hrun, ?_, ?_, hm', hf', ha'⟩
      · rw [hrel]
        simp
      · intro a ha
        simp only [List.map_cons, List.mem_cons, not_or] at ha
        rw [hframe a ha.2]
        exact hloc _ _ _ ha.1

/-- `linked_list_delete` on a list made of `cells`: with enough fuel it returns
`true`, has passed exactly the cells to the release function, and leaves the
header with a `NULL` head. -/
theorem delete_cells {s : State} {l : Addr} {cells : List (Addr × Nat)} {ff : FreeFn}
    (fuel : Nat) (hf : s.free_fptr = some ff) (hloc : ff.Local)
    (hl : IsList s.heap l cells) (hfuel : cells.length ≤ fuel) :
    ∃ s', linked_list_delete (some l) s fuel = .ok (true, s') ∧
      IsList s'.heap l [] ∧
      s'.released = (cells.map Prod.fst).reverse ++ s.released ∧
      s'.malloc_fptr = s.malloc_fptr ∧ s'.free_fptr = s.free_fptr ∧
      s'.acquired = s.acquired := by
  obtain ⟨hhd, hseg⟩ := hl
  have hlc : l ∉ cells.map Prod.fst := fun hmem => by
    obtain ⟨n, hn⟩ := Seg_live hseg hmem
    rw [hhd] at hn; cases hn
  obtain ⟨s₁, hrun, hrel, hframe, hm₁, hf₁, ha₁⟩ := delete_loop_seg hloc fuel hf hseg hfuel
  have hhd₁ : s₁.heap l = some (.linked_list { head := firstAddr cells none }) := by
    rw [hframe l hlc]; exact hhd
  simp only [linked_list_delete, load_list_of_eq hhd, ok_bind, hrun, set_head_of_eq none hhd₁]
  exact ⟨_, rfl, ⟨by simp, trivial⟩, hrel, hm₁, hf₁, ha₁⟩

/-! ## The contract of the remaining operations -/

/-- The list of `heap3` is made of `cells3`. -/
theorem isList_heap3 : IsList heap3 1 cells3 := ⟨rfl, rfl, rfl, rfl, trivial⟩

/-- The list of `heap3` holds 10, 15, 20. -/
theorem contents_heap3 : Contents heap3 1 [10, 15, 20] := ⟨cells3, isList_heap3, rfl⟩

/-- `linked_list_size` only reads the heap. -/
theorem size_heap_congr {s s' : State} (h : s'.heap = s.heap) (ll : Option Addr)
    (fuel : Nat) : linked_list_size ll s' fuel = linked_list_size ll s fuel := by
  unfold linked_list_size
  rw [h]

/-- C11: on a list with contents `xs`, when the registered acquire function
answers `NULL`, `linked_list_insert_front(list, v)` and
`linked_list_insert(list, i, v)` both return `false` and leave the heap, hence the
contents and the size of the list, as they were. -/
theorem insert_acquire_failure (s : State) (l : Addr) (xs : List Nat) (i v : Nat)
    (f : MallocFn) (hm : s.malloc_fptr = some f)
    (hp : f s.acquired.length s.heap = none) (hc : Contents s.heap l xs) :
    (∃ s', linked_list_insert_front (some l) v s = .ok (false, s') ∧
      s'.heap = s.heap ∧ Contents s'.heap l xs ∧
      ∀ fuel, linked_list_size (some l) s' fuel = linked_list_size (some l) s fuel) ∧
    (∃ s', linked_list_insert (some l) i v s = .ok (false, s') ∧
      s'.heap = s.heap ∧ Contents s'.heap l xs ∧
      ∀ fuel, linked_list_size (some l) s' fuel = linked_list_size (some l) s fuel) := by
  obtain ⟨s₁, hrun₁, hh₁, -⟩ := insert_front_null (some l) v hm hp
  obtain ⟨s₂, hrun₂, hh₂, -⟩ := insert_null (some l) i v hm hp
  exact ⟨⟨s₁, hrun₁, hh₁, hh₁ ▸ hc, fun fuel => size_heap_congr hh₁ _ fuel⟩,
    ⟨s₂, hrun₂, hh₂, hh₂ ▸ hc, fun fuel => size_heap_congr hh₂ _ fuel⟩⟩

/-- Instance of C11: the list 5, 10, 20, 30 with an acquire function that fails. -/
theorem insert_acquire_failure_witness :
    (∃ s', linked_list_insert_front (some 1) 7 (state_exhausted heap4) = .ok (false, s') ∧
      s'.heap = (state_exhausted heap4).heap ∧ Contents s'.heap 1 [5, 10, 20, 30] ∧
      ∀ fuel, linked_list_size (some 1) s' fuel =
        linked_list_size (some 1) (state_exhausted heap4) fuel) ∧
    (∃ s', linked_list_insert (some 1) 2 7 (state_exhausted heap4) = .ok (false, s') ∧
      s'.heap = (state_exhausted heap4).heap ∧ Contents s'.heap 1 [5, 10, 20, 30] ∧
      ∀ fuel, linked_list_size (some 1) s' fuel =
        linked_list_size (some 1) (state_exhausted heap4) fuel) :=
  insert_acquire_failure (state_exhausted heap4) 1 [5, 10, 20, 30] 2 7 exhausted rfl rfl
    contents_heap4

/-- C12, at the failing input: on a `NULL` list `linked_list_size` returns 0, the
value it returns on an empty list, and not `SIZE_MAX`. -/
theorem linked_list_size_null_returns_zero :
    (∀ (s : State) (fuel : Nat), linked_list_size none s fuel = .ok 0) ∧
      (∀ fuel, linked_list_size (some 1) (state_of heap0) fuel = .ok 0) ∧
      0 ≠ SIZE_MAX :=
  ⟨fun _ _ => rfl, fun _ => rfl, by decide⟩

/-- C20: on a list with contents `xs` (of a length that `size_t` can hold),
`linked_list_find(list, v)` returns some `r ≤ length xs`, and `r = length xs`
exactly when `v` does not occur in `xs`. -/
theorem linked_list_find_le_length (s : State) (l : Addr) (xs : List Nat) (v fuel : Nat)
    (hc : Contents s.heap l xs) (hlen : xs.length ≤ SIZE_MAX) (hfuel : xs.length ≤ fuel) :
    ∃ r, linked_list_find (some l) v s fuel = .ok r ∧ r ≤ xs.length ∧
      (r = xs.length ↔ v ∉ xs) := by
  obtain ⟨cells, hl, rfl⟩ := hc
  have hle : List.indexOf v (cells.map Prod.snd) ≤ (cells.map Prod.snd).length :=
    List.indexOf_le_length
  refine ⟨List.indexOf v (cells.map Prod.snd), ?_, hle, ?_⟩
  · rw [find_of_cells hl v fuel (by simpa using hfuel)]
    congr 1
    apply Nat.mod_eq_of_lt
    unfold SIZE_MAX at hlen
    omega
  · rw [← not_iff_not, not_not, ← List.indexOf_lt_length]
    omega

/-- Instance of C20: 40 in the list 5, 10, 20, 30. -/
theorem linked_list_find_le_length_witness :
    ∃ r, linked_list_find (some 1) 40 (state_of heap4) 4 = .ok r ∧
      r ≤ [5, 10, 20, 30].length ∧ (r = [5, 10, 20, 30].length ↔ 40 ∉ [5, 10, 20, 30]) :=
  linked_list_find_le_length (state_of heap4) 1 [5, 10, 20, 30] 40 4 contents_heap4
    (by decide) (by decide)

/-- Calls of `linked_list_iterate` compose: `k` calls followed by one more are
`k + 1` calls. -/
theorem iterate_times_snoc (iter : Option Addr) (k : Nat) {s s' s'' : State}
    {bs : List Bool} {b : Bool} (hk : iterate_times iter k s = .ok (bs, s'))
    (hb : linked_list_iterate iter s' = .ok (b, s'')) :
    iterate_times iter (k + 1) s = .ok (bs ++ [b], s'') := by
  induction k generalizing s bs with
  | zero =>
    simp only [iterate_times, Except.ok.injEq, Prod.mk.injEq] at hk
    obtain ⟨rfl, rfl⟩ := hk
    simp [iterate_times, hb]
  | succ k ih =>
    rw [iterate_times] at hk
    cases h₁ : linked_list_iterate iter s with
    | error e => rw [h₁] at hk; cases hk
    | ok r₁ =>
      obtain ⟨b₁, s₁⟩ := r₁
      rw [h₁] at hk
      simp only [ok_bind] at hk
      cases h₂ : iterate_times iter k s₁ with
      | error e => rw [h₂] at hk; cases hk
      | ok r₂ =>
        obtain ⟨bs₂, s₂⟩ := r₂
        rw [h₂] at hk
        simp only [ok_bind, Except.ok.injEq, Prod.mk.injEq] at hk
        obtain ⟨rfl, rfl⟩ := hk
        have := ih h₂
        rw [iterate_times, h₁]
        simp only [ok_bind, this, List.cons_append]

/-- What an iterator that stands on the cell of index `j` says about the values
of the list. -/
theorem IterAt.values {h : Heap} {it l : Addr} {cells : List (Addr × Nat)} {j : Nat}
    (hit : IterAt h it l cells j) :
    ∃ itr, h it = some (.iterator itr) ∧ itr.ll = some l ∧ itr.current_index = j ∧
      (cells.map Prod.snd)[j]? = some itr.data ∧
      (∃ c n, itr.current_node = some c ∧ h c = some (.node n) ∧ n.data = itr.data) ∧
      Contents h l (cells.map Prod.snd) := by
  obtain ⟨hl, c, hc, hiter⟩ := hit
  obtain ⟨hnode, -⟩ := Seg_getElem hl.2 hc
  exact ⟨_, hiter, rfl, rfl, by simp [List.getElem?_map, hc], ⟨c.1, _, rfl, hnode, rfl⟩,
    cells, hl, rfl⟩

/-- C13: on a non-empty list with contents `xs`, an iterator created at index 0
holds `xs[0]`; for every `j < length xs`, `j` calls of `linked_list_iterate` all
return `true` and leave the iterator with cached value `xs[j]` and index `j`; of
`length xs` calls, the last one returns `false`. -/
theorem iterator_walk (s : State) (l : Addr) (xs : List Nat) (f : MallocFn) (it : Addr)
    (hm : s.malloc_fptr = some f) (hp : f s.acquired.length s.heap = some it)
    (hfresh : s.heap it = none) (hc : Contents s.heap l xs) (hne : xs ≠ [])
    (hlen : xs.length ≤ SIZE_MAX) :
    ∃ s₀, linked_list_create_iterator (some l) 0 s = .ok (some it, s₀) ∧
      (∀ j, j < xs.length →
        ∃ sj itr, iterate_times (some it) j s₀ = .ok (List.replicate j true, sj) ∧
          sj.heap it = some (.iterator itr) ∧ xs[j]? = some itr.data ∧
          itr.current_index = j ∧ Contents sj.heap l xs) ∧
      ∃ sn, iterate_times (some it) xs.length s₀ =
        .ok (List.replicate (xs.length - 1) true ++ [false], sn) := by
  obtain ⟨cells, hl, rfl⟩ := hc
  have hpos : 0 < cells.length := by
    cases cells with
    | nil => exact absurd rfl hne
    | cons c rest => simp
  rw [List.length_map] at hlen ⊢
  have hmax : cells.length ≤ 2 ^ 64 := by
    unfold SIZE_MAX at hlen
    omega
  obtain ⟨s₀, hrun, hit₀, -⟩ := create_iterator_cells_ok hm hp hfresh hl hpos
  refine ⟨s₀, hrun, fun j hj => ?_, ?_⟩
  · obtain ⟨sj, hwalk, hitj, -⟩ := iterate_times_cells j hit₀ (by omega) hmax
    rw [Nat.zero_add] at hitj
    obtain ⟨itr, h₁, -, h₃, h₄, -, h₆⟩ := hitj.values
    exact ⟨sj, itr, hwalk, h₁, h₄, h₃, h₆⟩
  · obtain ⟨sj, hwalk, hitj, -⟩ :=
      iterate_times_cells (cells.length - 1) hit₀ (by omega) hmax
    rw [Nat.zero_add] at hitj
    have hlast := iterate_cells_last hitj (by omega)
    have := iterate_times_snoc (some it) (cells.length - 1) hwalk hlast
    rw [show cells.length - 1 + 1 = cells.length by omega] at this
    exact ⟨sj, this⟩

/-- Instance of C13: the walk over the list 10, 15, 20. -/
theorem iterator_walk_witness :
    ∃ s₀, linked_list_create_iterator (some 1) 0 (state_of heap3) = .ok (some 100, s₀) ∧
      (∀ j, j < [10, 15, 20].length →
        ∃ sj itr, iterate_times (some 100) j s₀ = .ok (List.replicate j true, sj) ∧
          sj.heap 100 = some (.iterator itr) ∧ [10, 15, 20][j]? = some itr.data ∧
          itr.current_index = j ∧ Contents sj.heap 1 [10, 15, 20]) ∧
      ∃ sn, iterate_times (some 100) [10, 15, 20].length s₀ =
        .ok (List.replicate ([10, 15, 20].length - 1) true ++ [false], sn) :=
  iterator_walk (state_of heap3) 1 [10, 15, 20] bump 100 rfl rfl rfl contents_heap3
    (by decide) (by decide)

/-- C14, where the source fails: for a list with contents `xs` and any index that
is not below `length xs`, and for a `NULL` list, `linked_list_create_iterator`
does not return `NULL`; it dereferences `NULL`. -/
theorem linked_list_create_iterator_bad_index (s : State) (l : Addr) (xs : List Nat)
    (i : Nat) (hc : Contents s.heap l xs) (hi : xs.length ≤ i) :
    linked_list_create_iterator (some l) i s = .error .fault ∧
      linked_list_create_iterator none i s = .error .fault := by
  obtain ⟨cells, hl, rfl⟩ := hc
  exact ⟨create_iterator_cells_out hl (by simpa using hi), rfl⟩

/-- Instance of C14: index 3 on the three-element list 10, 15, 20. -/
theorem linked_list_create_iterator_bad_index_witness :
    linked_list_create_iterator (some 1) 3 (state_of heap3) = .error .fault ∧
      linked_list_create_iterator none 3 (state_of heap3) = .error .fault :=
  linked_list_create_iterator_bad_index (state_of heap3) 1 [10, 15, 20] 3 contents_heap3
    (by decide)

/-- C15: on a list with contents `xs`, `linked_list_create_iterator(list, i)` with
`i < length xs` and a successful acquire returns an iterator of that list with
index `i`, standing on a node whose value `xs[i]` it has cached; the contents of
the list are unchanged. -/
theorem linked_list_create_iterator_in_range (s : State) (l : Addr) (xs : List Nat)
    (i : Nat) (f : MallocFn) (it : Addr)
    (hm : s.malloc_fptr = some f) (hp : f s.acquired.length s.heap = some it)
    (hfresh : s.heap it = none) (hc : Contents s.heap l xs) (hi : i < xs.length) :
    ∃ s' itr, linked_list_create_iterator (some l) i s = .ok (some it, s') ∧
      s'.heap it = some (.iterator itr) ∧ itr.ll = some l ∧ itr.current_index = i ∧
      xs[i]? = some itr.data ∧
      (∃ c n, itr.current_node = some c ∧ s'.heap c = some (.node n) ∧ n.data = itr.data) ∧
      Contents s'.heap l xs := by
  obtain ⟨cells, hl, rfl⟩ := hc
  obtain ⟨s', hrun, hit, -⟩ :=
    create_iterator_cells_ok hm hp hfresh hl (by simpa using hi)
  obtain ⟨itr, h₁, h₂, h₃, h₄, h₅, h₆⟩ := hit.values
  exact ⟨s', itr, hrun, h₁, h₂, h₃, h₄, h₅, h₆⟩

/-- Instance of C15: index 1 on the list 10, 15, 20. -/
theorem linked_list_create_iterator_in_range_witness :
    ∃ s' itr, linked_list_create_iterator (some 1) 1 (state_of heap3) = .ok (some 100, s') ∧
      s'.heap 100 = some (.iterator itr) ∧ itr.ll = some 1 ∧ itr.current_index = 1 ∧
      [10, 15, 20][1]? = some itr.data ∧
      (∃ c n, itr.current_node = some c ∧ s'.heap c = some (.node n) ∧ n.data = itr.data) ∧
      Contents s'.heap 1 [10, 15, 20] :=
  linked_list_create_iterator_in_range (state_of heap3) 1 [10, 15, 20] 1 bump 100
    rfl rfl rfl contents_heap3 (by decide)

/-- C16: on an iterator whose current node is `NULL` or has no successor,
`linked_list_iterate` returns `false` and leaves the whole state (the iterator
and the list with it) unchanged, and so does any number of further calls; on a
`NULL` iterator it returns `false`. -/
theorem linked_list_iterate_at_tail (s : State) (it : Addr) (itr : iterator)
    (hit : s.heap it = some (.iterator itr))
    (hend : itr.current_node = none ∨
      ∃ c n, itr.current_node = some c ∧ s.heap c = some (.node n) ∧ n.next = none) :
    linked_list_iterate (some it) s = .ok (false, s) ∧
      (∀ k, iterate_times (some it) k s = .ok (List.replicate k false, s)) ∧
      linked_list_iterate none s = .ok (false, s) := by
  have hone : linked_list_iterate (some it) s = .ok (false, s) := by
    rcases hend with hnone | ⟨c, n, hc, hn, hnext⟩
    · simp only [linked_list_iterate, load_iter_of_eq hit, ok_bind, hnone]
    · simp only [linked_list_iterate, load_iter_of_eq hit, ok_bind, hc, load_node_of_eq hn,
        hnext]
  refine ⟨hone, fun k => ?_, rfl⟩
  induction k with
  | zero => rfl
  | succ k ih => simp only [iterate_times, hone, ok_bind, ih, List.replicate_succ]

/-- Instance of C16: an iterator on the last node of the list 10, 15, 20. -/
theorem linked_list_iterate_at_tail_witness :
    linked_list_iterate (some 100) (state_of heap3_iter) = .ok (false, state_of heap3_iter) ∧
      (∀ k, iterate_times (some 100) k (state_of heap3_iter) =
        .ok (List.replicate k false, state_of heap3_iter)) ∧
      linked_list_iterate none (state_of heap3_iter) = .ok (false, state_of heap3_iter) :=
  linked_list_iterate_at_tail (state_of heap3_iter) 100
    { ll := some 1, current_node := some 4, current_index := 2, data := 20 } rfl
    (Or.inr ⟨4, { data := 20, next := none }, rfl, rfl, rfl⟩)

/-- C17: `linked_list_delete` returns `false` on a `NULL` list.  On a list made of
`n` cells it returns `true` (given enough fuel for the loop); the release function
has then been called `n` times, with the addresses of the cells, each once and
never with the header; the header's head is `NULL` and the size is 0. -/
theorem linked_list_delete_spec (s : State) (l : Addr) (cells : List (Addr × Nat))
    (ff : FreeFn) (fuel : Nat) (hf : s.free_fptr = some ff) (hloc : ff.Local)
    (hl : IsList s.heap l cells) (hfuel : cells.length ≤ fuel) :
    linked_list_delete none s fuel = .ok (false, s) ∧
      ∃ s', linked_list_delete (some l) s fuel = .ok (true, s') ∧
        s'.released = (cells.map Prod.fst).reverse ++ s.released ∧
        s'.released.length = s.released.length + cells.length ∧
        (cells.map Prod.fst).Nodup ∧ l ∉ cells.map Prod.fst ∧
        s'.heap l = some (.linked_list { head := none }) ∧ Contents s'.heap l [] ∧
        ∀ fuel', linked_list_size (some l) s' fuel' = .ok 0 := by
  obtain ⟨s', hrun, hl', hrel, -⟩ := delete_cells fuel hf hloc hl hfuel
  have hlc : l ∉ cells.map Prod.fst := fun hmem => by
    obtain ⟨n, hn⟩ := Seg_live hl.2 hmem
    rw [hl.1] at hn; cases hn
  refine ⟨rfl, s', hrun, hrel, ?_, Seg_nodup hl.2, hlc, hl'.1, ⟨[], hl', rfl⟩, fun fuel' => ?_⟩
  · rw [hrel]
    simp
    omega
  · exact size_of_cells hl' fuel' (Nat.zero_le _)

/-- Instance of C17: deleting the list 5, 10, 20, 30 releases the nodes at 2, 3, 4
and 5. -/
theorem linked_list_delete_spec_witness :
    linked_list_delete none (state_of heap4) 4 = .ok (false, state_of heap4) ∧
      ∃ s', linked_list_delete (some 1) (state_of heap4) 4 = .ok (true, s') ∧
        s'.released = (cells4.map Prod.fst).reverse ++ (state_of heap4).released ∧
        s'.released.length = (state_of heap4).released.length + cells4.length ∧
        (cells4.map Prod.fst).Nodup ∧ 1 ∉ cells4.map Prod.fst ∧
        s'.heap 1 = some (.linked_list { head := none }) ∧ Contents s'.heap 1 [] ∧
        ∀ fuel', linked_list_size (some 1) s' fuel' = .ok 0 :=
  linked_list_delete_spec (state_of heap4) 1 cells4 release 4 rfl release_local
    isList_heap4 (by decide)

/-- C18, at the failing input: `linked_list_insert(list, 1, 99)` on an empty list
acquires the block at 100, returns `false`, and leaves that node in the heap,
neither linked into the list nor released; a following `linked_list_delete`
releases nothing.  One node was acquired, none released, and the list is empty. -/
theorem insert_out_of_range_leaks :
    ∃ s', linked_list_insert (some 1) 1 99 (state_of heap0) = .ok (false, s') ∧
      nodes_acquired s' = 1 ∧ s'.released = [] ∧ Contents s'.heap 1 [] ∧
      s'.heap 100 = some (.node { data := 99, next := none }) ∧
      ∃ s'', linked_list_delete (some 1) s' 0 = .ok (true, s'') ∧
        nodes_acquired s'' = 1 ∧ s''.released = [] ∧
        s''.heap 100 = some (.node { data := 99, next := none }) :=
  ⟨_, rfl, rfl, rfl, ⟨[], ⟨rfl, trivial⟩, rfl⟩, rfl, _, rfl, rfl, rfl, rfl⟩

/-- C19: `linked_list_create` returns `NULL` when no acquire function is
registered, and when the registered one answers `NULL`.  After
`linked_list_register_malloc` has stored a function that then answers with an
address, it returns the list at that address, with a `NULL` head and size 0.
`linked_list_register_malloc(NULL)` returns `false` and changes nothing. -/
theorem linked_list_create_spec (s : State) (f : MallocFn) :
    (s.malloc_fptr = none → linked_list_create s = .ok (none, s)) ∧
      (s.malloc_fptr = some f → f s.acquired.length s.heap = none →
        ∃ s', linked_list_create s = .ok (none, s') ∧ s'.heap = s.heap) ∧
      (∀ l, f s.acquired.length s.heap = some l →
        (linked_list_register_malloc (some f) s).1 = true ∧
        ∃ s', linked_list_create (linked_list_register_malloc (some f) s).2 =
            .ok (some l, s') ∧
          s'.heap l = some (.linked_list { head := none }) ∧ Contents s'.heap l [] ∧
          ∀ fuel, linked_list_size (some l) s' fuel = .ok 0) ∧
      linked_list_register_malloc none s = (false, s) := by
  refine ⟨fun hm => ?_, fun hm hp => ?_, fun l hp => ⟨rfl, ?_⟩, rfl⟩
  · simp only [linked_list_create, hm]
  · simp only [linked_list_create, hm, call_malloc, hp, ok_bind]
    exact ⟨_, rfl, rfl⟩
  · simp only [linked_list_create, linked_list_register_malloc, call_malloc, hp, ok_bind]
    have hl : IsList ((({ s with malloc_fptr := some f } : State).store l
        (.linked_list { head := none })).heap) l [] := ⟨by simp, trivial⟩
    exact ⟨_, rfl, hl.1, ⟨[], hl, rfl⟩, fun fuel => size_of_cells hl fuel (Nat.zero_le _)⟩

/-- Instance of C19: no function registered; a function that fails; and `bump`
registered on a state without one, which then hands out address 100. -/
theorem linked_list_create_spec_witness :
    linked_list_create (state_unregistered heap0) = .ok (none, state_unregistered heap0) ∧
      (∃ s', linked_list_create (state_exhausted heap0) = .ok (none, s') ∧
        s'.heap = (state_exhausted heap0).heap) ∧
      ((linked_list_register_malloc (some bump) (state_unregistered heap0)).1 = true ∧
        ∃ s', linked_list_create
            (linked_list_register_malloc (some bump) (state_unregistered heap0)).2 =
            .ok (some 100, s') ∧
          s'.heap 100 = some (.linked_list { head := none }) ∧ Contents s'.heap 100 [] ∧
          ∀ fuel, linked_list_size (some 100) s' fuel = .ok 0) ∧
      linked_list_register_malloc none (state_of heap0) = (false, state_of heap0) :=
  ⟨(linked_list_create_spec (state_unregistered heap0) bump).1 rfl,
    (linked_list_create_spec (state_exhausted heap0) exhausted).2.1 rfl rfl,
    (linked_list_create_spec (state_unregistered heap0) bump).2.2.1 100 rfl,
    (linked_list_create_spec (state_of heap0) bump).2.2.2⟩

/-- One call other than `insert_end`, with its effect on the logs: a call that
returns `true` acquires one node (an insertion) or releases one (a removal); a
call that returns `false` releases nothing, but may have acquired a node. -/
theorem Op.call_logs {s : State} {l : Addr} {cells : List (Addr × Nat)} {f : MallocFn}
    {ff : FreeFn} (op : Op) (fuel : Nat) (hop : ∀ v, op ≠ Op.insert_end v)
    (hm : s.malloc_fptr = some f) (hfr : f.Fresh) (hf : s.free_fptr = some ff)
    (hloc : ff.Local) (hl : IsList s.heap l cells) :
    ∃ b s' cells', op.call (some l) fuel s = .ok (b, s') ∧ IsList s'.heap l cells' ∧
      s'.malloc_fptr = some f ∧ s'.free_fptr = some ff ∧
      cells'.length + (if b && !op.is_insertion then 1 else 0) =
        cells.length + (if b && op.is_insertion then 1 else 0) ∧
      s'.released.length =
        s.released.length + (if b && !op.is_insertion then 1 else 0) ∧
      nodes_acquired s + (if b && op.is_insertion then 1 else 0) ≤ nodes_acquired s' := by
  cases op with
  | insert_end v => exact absurd rfl (hop v)
  | insert_front v =>
    cases hp : f s.acquired.length s.heap with
    | none =>
      obtain ⟨s', hrun, hh, hm', hf', ha', hr'⟩ := insert_front_null (some l) v hm hp
      exact ⟨false, s', cells, hrun, hh ▸ hl, hm'.trans hm, hf'.trans hf, by simp,
        by simp [hr'], by simp [nodes_acquired, ha' (by simp)]⟩
    | some p =>
      obtain ⟨s', hrun, hl', hm', hf', ha', hr'⟩ :=
        insert_front_cells_ok v hm hp (hfr _ _ _ hp) hl
      exact ⟨true, s', _, hrun, hl', hm'.trans hm, hf'.trans hf, by simp [Op.is_insertion],
        by simp [hr', Op.is_insertion], by simp [nodes_acquired, ha', Op.is_insertion]⟩
  | insert i v =>
    cases hp : f s.acquired.length s.heap with
    | none =>
      obtain ⟨s', hrun, hh, hm', hf', ha', hr'⟩ := insert_null (some l) i v hm hp
      exact ⟨false, s', cells, hrun, hh ▸ hl, hm'.trans hm, hf'.trans hf, by simp,
        by simp [hr'], by simp [nodes_acquired, ha' (by simp)]⟩
    | some p =>
      by_cases hi : i ≤ cells.length
      · obtain ⟨s', hrun, hl', hm', hf', ha', hr'⟩ :=
          insert_cells_ok i v hm hp (hfr _ _ _ hp) hl hi
        refine ⟨true, s', _, hrun, hl', hm'.trans hm, hf'.trans hf, ?_,
          by simp [hr', Op.is_insertion], by simp [nodes_acquired, ha', Op.is_insertion]⟩
        simp [Op.is_insertion, List.length_take]
        omega
      · obtain ⟨s', hrun, hl', hm', hf', ha', hr'⟩ :=
          insert_cells_out i v hm hp (hfr _ _ _ hp) hl (by omega)
        exact ⟨false, s', cells, hrun, hl', hm'.trans hm, hf'.trans hf, by simp,
          by simp [hr'], by simp [nodes_acquired, ha']⟩
  | remove i =>
    by_cases hi : i < cells.length
    · obtain ⟨s', hrun, hl', hm', hf', ha', hr'⟩ := remove_cells_ok i hf hl hi
      refine ⟨true, s', _, hrun, hl' hloc, hm'.trans hm, hf'.trans hf, ?_,
        by simp [hr', Op.is_insertion], by simp [nodes_acquired, ha', Op.is_insertion]⟩
      simp [Op.is_insertion, List.length_take]
      omega
    · exact ⟨false, s, cells, remove_cells_out i hl (by omega), hl, hm, hf, by simp,
        by simp, by simp⟩

/-- What the source does satisfy of C18: along a sequence of `insert_front`,
`insert` and `remove` calls, of which `k` insertions and `r` removals return
`true`, the list grows by `k - r` nodes, exactly `r` nodes are released, and at
least `k` are acquired.  The nodes acquired beyond `k` are those of the calls of
`insert` that returned `false` after a successful acquire; they are the leak. -/
theorem acquire_release_balance {l : Addr} {f : MallocFn} {ff : FreeFn} (fuel : Nat)
    (ops : List Op) (hops : ∀ op ∈ ops, ∀ v, op ≠ Op.insert_end v) (hfr : f.Fresh)
    (hloc : ff.Local) {s : State} {cells : List (Addr × Nat)}
    (hm : s.malloc_fptr = some f) (hf : s.free_fptr = some ff) (hl : IsList s.heap l cells) :
    ∃ k r s' cells', run_calls (some l) fuel ops s = .ok (k, r, s') ∧
      IsList s'.heap l cells' ∧ cells'.length + r = cells.length + k ∧
      s'.released.length = s.released.length + r ∧
      nodes_acquired s + k ≤ nodes_acquired s' := by
  induction ops generalizing s cells with
  | nil => exact ⟨0, 0, s, cells, rfl, hl, rfl, rfl, Nat.le_refl _⟩
  | cons op ops ih =>
    obtain ⟨b, s₁, cells₁, hcall, hl₁, hm₁, hf₁, hlen₁, hrel₁, hacq₁⟩ :=
      Op.call_logs op fuel (hops op (by simp)) hm hfr hf hloc hl
    obtain ⟨k, r, s', cells', hrun, hl', hlen', hrel', hacq'⟩ :=
      ih (fun o ho => hops o (by simp [ho])) hm₁ hf₁ hl₁
    refine ⟨if b && op.is_insertion then k + 1 else k,
      if b && !op.is_insertion then r + 1 else r, s', cells',
      by simp only [run_calls, hcall, ok_bind, hrun], hl', ?_, ?_, ?_⟩ <;>
    cases b <;> cases hins : op.is_insertion <;> simp_all <;> omega

end LinkedList
